import Mathlib

/-!
Shallow embedding of src/cmd/font2go/webfont.go, the SVG webfont path
parser of the go-gerber font2go tool.

Strings are modelled as List Char.  The three Go regexp patterns
  cmdRE   = (?i)^([mlhvcsqta])(?:\s*(-?\d+\.?\d*)[,\s+]?)+
  closeRE = (?i)^(z)\s*
  numRE   = ^\s*(-?\d+\.?\d*)[,\s+]?
are embedded as the matching functions they denote on the anchored input.
Go regexp uses leftmost-first matching; for these patterns no greedy
sub-match can ever be given back (once one repetition of the parameter
group has matched, the whole pattern has matched, and shrinking a greedy
character-class run can never enable an otherwise failing continuation),
so each matcher below is a deterministic maximal-munch scanner.

float64 values are modelled as exact rationals of the decimal literal:
every claim under study concerns which tokens are converted and in which
order, never IEEE rounding.  log.Fatalf (process abort) is modelled by
Outcome.fatal carrying the message payload, and the nil-pointer
dereference of the optional Unicode field performed inside the two
log.Printf diagnostics is modelled by Outcome.nilPanic.
-/

namespace Webfont

set_option maxRecDepth 10000

/-- RE2 character class \s as used by all three regexes: space, tab,
newline, form feed, carriage return. -/
def isSpace (c : Char) : Bool :=
  c = ' ' || c = '\t' || c = '\n' || c = '\x0c' || c = '\r'

/-- The separator character class [,\s+] of cmdRE and numRE: a comma, a
literal plus sign, or whitespace. -/
def sepChar (c : Char) : Bool :=
  c = ',' || c = '+' || isSpace c

/-- Case-insensitive command-letter class [mlhvcsqta] of cmdRE.  Go's
(?i) uses Unicode simple case folding, under which the fold orbit of s
also contains U+017F (long s); all other class letters, and the z of
closeRE, fold only with their ASCII counterparts. -/
def cmdLetter (c : Char) : Bool :=
  c.toLower = 'm' || c.toLower = 'l' || c.toLower = 'h' || c.toLower = 'v' ||
  c.toLower = 'c' || c.toLower = 's' || c.toLower = 'q' || c.toLower = 't' ||
  c.toLower = 'a' || c = 'ſ'

/-- Digits-and-optional-fraction part of the numeric-literal matcher, for
a given already-stripped sign prefix neg. -/
def numTokCore (neg s1 : List Char) : Option (List Char × List Char) :=
  if s1.takeWhile Char.isDigit = [] then none
  else if (s1.dropWhile Char.isDigit).head? = some '.' then
    some (neg ++ s1.takeWhile Char.isDigit ++
            '.' :: (s1.dropWhile Char.isDigit).tail.takeWhile Char.isDigit,
          (s1.dropWhile Char.isDigit).tail.dropWhile Char.isDigit)
  else some (neg ++ s1.takeWhile Char.isDigit, s1.dropWhile Char.isDigit)

/-- Matcher of the numeric-literal group -?\d+\.?\d* shared by cmdRE and
numRE: returns the matched token and the unconsumed rest, or none when no
token starts here. -/
def numTok (s : List Char) : Option (List Char × List Char) :=
  if s.head? = some '-' then numTokCore ['-'] s.tail else numTokCore [] s

/-- Matcher of numRE, which is also a single repetition of the parameter
group of cmdRE: optional whitespace, a numeric literal, then at most one
separator character.  Returns (consumed prefix, the literal, rest). -/
def numRE (s : List Char) : Option (List Char × List Char × List Char) :=
  let ws := s.takeWhile isSpace
  let s1 := s.dropWhile isSpace
  match numTok s1 with
  | none => none
  | some (t, s2) =>
    match s2 with
    | [] => some (ws ++ t, t, [])
    | c :: r => if sepChar c then some (ws ++ t ++ [c], t, r) else some (ws ++ t, t, c :: r)

/-- Fuelled driver of the one-or-more repetition of cmdRE's parameter
group: consumes repetitions of numRE while they match, collecting the
consumed text and the matched numeric literals.  The fuel only bounds
recursion depth; every caller supplies more fuel than the length of the
input, which the length lemmas below show is always enough. -/
def runManyF : Nat → List Char → List Char × List (List Char) × List Char
  | 0, s => ([], [], s)
  | fuel + 1, s =>
    match numRE s with
    | none => ([], [], s)
    | some (g, t, r) =>
      let q := runManyF fuel r
      (g ++ q.1, t :: q.2.1, q.2.2)

/-- Zero-or-more numRE repetitions with always-sufficient fuel. -/
def runMany (s : List Char) : List Char × List (List Char) × List Char :=
  runManyF (s.length + 1) s

/-- Matcher of closeRE: a case-insensitive z followed by optional
whitespace.  Returns the matched letter (case preserved) and the rest. -/
def closeRE (d : List Char) : Option (Char × List Char) :=
  match d with
  | [] => none
  | c :: r => if c = 'z' || c = 'Z' then some (c, r.dropWhile isSpace) else none

/-- Matcher of cmdRE: a command letter followed by one or more parameter
groups.  Returns (letter, text consumed after the letter, rest); the
consumed text is exactly m[0][1:], the substring ParsePath hands to
parseParams. -/
def cmdRE (d : List Char) : Option (Char × List Char × List Char) :=
  match d with
  | [] => none
  | c :: s =>
    if cmdLetter c then
      match runMany s with
      | (_, [], _) => none
      | (g, _ :: _, rest) => some (c, g, rest)
    else none

/-- Value of a decimal digit string. -/
def digitsVal (l : List Char) : Nat :=
  l.foldl (fun a c => a * 10 + (c.toNat - '0'.toNat)) 0

/-- Smallest magnitude at which strconv.ParseFloat for float64 reports
ErrRange on a plain decimal: under IEEE round-to-nearest-even a value of
magnitude at least 2^1024 - 2^970 (half an ulp above the largest finite
float64) rounds to infinity, and ParseFloat then returns a non-nil
ErrRange error.  Plain decimals without exponents cannot trigger the
underflow path, which ParseFloat resolves to zero without error. -/
def maxFloatBound : Nat := 2 ^ 1024 - 2 ^ 970

/-- Models atof, that is strconv.ParseFloat with log.Fatalf on error, on
its reachable inputs.  ParseFloat accepts a superset of the forms below
(exponents, leading-dot literals, ...), but atof is only ever applied to
text matched by the numeric-literal group -?\d+\.?\d*, on which it
returns the exact decimal value as a rational when the magnitude is
below maxFloatBound, and fails with ErrRange otherwise; none models the
error, which Go's atof turns into log.Fatalf.  The range test compares
scaled integer numerators so that it evaluates by kernel reduction.
atofCore handles the text after the optional sign; the sign does not
affect the symmetric range test. -/
def atofCore (neg : Bool) (u : List Char) : Option ℚ :=
  if u.takeWhile Char.isDigit = [] then none
  else if u.dropWhile Char.isDigit = [] then
    (if maxFloatBound ≤ digitsVal (u.takeWhile Char.isDigit) then none
     else some (if neg then -(digitsVal (u.takeWhile Char.isDigit) : ℚ)
          else (digitsVal (u.takeWhile Char.isDigit) : ℚ)))
  else if (u.dropWhile Char.isDigit).head? = some '.' ∧
      (u.dropWhile Char.isDigit).tail.all Char.isDigit then
    (if maxFloatBound * 10 ^ (u.dropWhile Char.isDigit).tail.length ≤
        digitsVal (u.takeWhile Char.isDigit) *
            10 ^ (u.dropWhile Char.isDigit).tail.length +
          digitsVal (u.dropWhile Char.isDigit).tail then none
     else some (if neg then
        -((digitsVal (u.takeWhile Char.isDigit) : ℚ) +
          (digitsVal (u.dropWhile Char.isDigit).tail : ℚ) /
            (10 : ℚ) ^ (u.dropWhile Char.isDigit).tail.length)
      else
        (digitsVal (u.takeWhile Char.isDigit) : ℚ) +
          (digitsVal (u.dropWhile Char.isDigit).tail : ℚ) /
            (10 : ℚ) ^ (u.dropWhile Char.isDigit).tail.length))
  else none

def atof (s : List Char) : Option ℚ :=
  if s.head? = some '-' then atofCore true s.tail else atofCore false s

/-- The parsed value of a token, defaulting to 0 (never hit on tokens the
matchers produce, as proved below). -/
def atofVal (s : List Char) : ℚ := (atof s).getD 0

/-- The three log.Fatalf sites of the file, each carrying the text the
corresponding format string reports. -/
inductive Fatalf where
  | unknownCommand (rest : List Char)
  | badParams (rest : List Char)
  | badFloat (s : List Char)
deriving DecidableEq

/-- Decidable equality for Except results, so that concrete parses can be
checked by evaluation. -/
instance exceptDecEq {a b : Type} [DecidableEq a] [DecidableEq b] :
    DecidableEq (Except a b) := fun x y =>
  match x, y with
  | .ok u, .ok v =>
    if h : u = v then .isTrue (by rw [h]) else .isFalse (fun hh => h (by injection hh))
  | .ok _, .error _ => .isFalse (fun hh => by injection hh)
  | .error _, .ok _ => .isFalse (fun hh => by injection hh)
  | .error u, .error v =>
    if h : u = v then .isTrue (by rw [h]) else .isFalse (fun hh => h (by injection hh))

/-- Fuelled body of parseParams: repeatedly strip one numRE match,
converting each matched literal with atof, until the text is exhausted;
text that matches no numeric token is fatal, as is a failed conversion. -/
def parseParamsF : Nat → List Char → Except Fatalf (List ℚ)
  | 0, _ => .ok []
  | fuel + 1, d =>
    if d = [] then .ok []
    else
      match numRE d with
      | some (_, t, r) =>
        match atof t with
        | some v =>
          match parseParamsF fuel r with
          | .ok vs => .ok (v :: vs)
          | .error e => .error e
        | none => .error (.badFloat t)
      | none => .error (.badParams d)

/-- parseParams with always-sufficient fuel. -/
def parseParams (d : List Char) : Except Fatalf (List ℚ) :=
  parseParamsF (d.length + 1) d

/-- One drawing instruction: the command letter (a single character in
the source, so modelled as Char) and its numeric operands. -/
structure PathStep where
  Command : Char
  Parameters : List ℚ
deriving DecidableEq

/-- The glyph record: the XML-optional attributes are Option-valued
pointers in the source. -/
structure Glyph where
  HorizAdvX : Int
  Unicode : Option (List Char)
  D : Option (List Char)
  DOrig : Option (List Char)
  GerberLP : Option (List Char)
  PathSteps : List PathStep
deriving DecidableEq

/-- The two log.Printf diagnostics of ParsePath, with their payloads. -/
inductive Diag where
  | usingDOrig (unicode : List Char)
  | warnNoLP (unicode : List Char) (numZs : Nat)
  | warnLP (unicode : List Char) (numZs : Nat) (lp : List Char)
deriving DecidableEq

/-- Result of a ParsePath call: normal return, process abort via
log.Fatalf, or a nil-pointer dereference of the Unicode field inside one
of the two log.Printf diagnostics. -/
inductive Outcome where
  | ok (g : Glyph) (logs : List Diag)
  | fatal (logs : List Diag) (err : Fatalf)
  | nilPanic (logs : List Diag)
deriving DecidableEq

/-- Fuelled scanning loop of ParsePath: close command first, then general
command, else fatal with the unconsumed remainder; counts close
commands. -/
def parseLoopF : Nat → List Char → Except Fatalf (List PathStep × Nat)
  | 0, _ => .ok ([], 0)
  | fuel + 1, d =>
    if d = [] then .ok ([], 0)
    else
      match closeRE d with
      | some (zc, rest) =>
        match parseLoopF fuel rest with
        | .ok (steps, n) => .ok (⟨zc, []⟩ :: steps, n + 1)
        | .error e => .error e
      | none =>
        match cmdRE d with
        | some (c, run, rest) =>
          match parseParams run with
          | .ok ps =>
            match parseLoopF fuel rest with
            | .ok (steps, n) => .ok (⟨c, ps⟩ :: steps, n)
            | .error e => .error e
          | .error e => .error e
        | none => .error (.unknownCommand d)

/-- The scanning loop with always-sufficient fuel. -/
def parseLoop (d : List Char) : Except Fatalf (List PathStep × Nat) :=
  parseLoopF (d.length + 1) d

/-- UTF-8 byte length of a string: Go's len() on a string counts bytes,
not runes. -/
def utf8Len (l : List Char) : Nat :=
  l.foldl (fun a c => a + c.utf8Size) 0

/-- The close-count versus polarity-marker condition guarding the warning
in ParsePath: GerberLP is absent, or its byte length differs from
numZs. -/
def lpMismatch : Option (List Char) → Nat → Bool
  | none, _ => true
  | some lp, n => utf8Len lp != n

/-- The warning diagnostic ParsePath prints on a mismatch (one Printf
shape for a nil GerberLP, one for a present GerberLP). -/
def warnDiag (u : List Char) (lp : Option (List Char)) (n : Nat) : Diag :=
  match lp with
  | none => .warnNoLP u n
  | some l => .warnLP u n l

/-- Body of ParsePath after override resolution: the scanning loop over
the effective path string d, then the soft close-count validation.  The
warning dereferences the Unicode field, panicking when it is nil.  Log
output already emitted is threaded through logs. -/
def parsePathCore (g : Glyph) (d : List Char) (logs : List Diag) : Outcome :=
  match parseLoop d with
  | .error e => .fatal logs e
  | .ok (steps, numZs) =>
    if 1 < numZs ∧ lpMismatch g.GerberLP numZs = true then
      match g.Unicode with
      | none => .nilPanic logs
      | some u =>
        .ok { g with PathSteps := g.PathSteps ++ steps } (logs ++ [warnDiag u g.GerberLP numZs])
    else .ok { g with PathSteps := g.PathSteps ++ steps } logs

/-- ParsePath.  A nil receiver cannot arise in the model; a nil D returns
with no step and no diagnostic.  A non-nil, non-empty DOrig is used in
place of D after a log.Printf notice whose argument dereferences the
Unicode field, panicking when that field is nil. -/
def ParsePath (g : Glyph) : Outcome :=
  match g.D with
  | none => .ok g []
  | some d =>
    match g.DOrig with
    | some s =>
      if s = [] then parsePathCore g d []
      else
        match g.Unicode with
        | none => .nilPanic []
        | some u => parsePathCore g s [.usingDOrig u]
    | none => parsePathCore g d []

/-- The effective path string ParsePath scans, paired with whether the
override was used, mirroring the override-precedence prologue of
ParsePath: DOrig when non-nil and non-empty, else D; none when D is nil
and the call is a no-op. -/
def effective (g : Glyph) : Option (List Char × Bool) :=
  match g.D with
  | none => none
  | some d =>
    match g.DOrig with
    | some s => if s = [] then some (d, false) else some (s, true)
    | none => some (d, false)

/-- Log output of an outcome. -/
def Outcome.logs : Outcome → List Diag
  | .ok _ l => l
  | .fatal l _ => l
  | .nilPanic l => l

/-- Step sequence of a completed outcome. -/
def Outcome.stepsOf : Outcome → Option (List PathStep)
  | .ok g _ => some g.PathSteps
  | _ => none

/-- Fatal error of an aborted outcome. -/
def Outcome.errOf : Outcome → Option Fatalf
  | .fatal _ e => some e
  | _ => none

/-- Whether the outcome is the nil-Unicode dereference panic. -/
def Outcome.isPanic : Outcome → Bool
  | .nilPanic _ => true
  | _ => false

/-- Digit-string core of the token grammar, one or more digits then an
optional dot with zero or more digits. -/
def IsTokCore (u : List Char) : Bool :=
  !(u.takeWhile Char.isDigit).isEmpty &&
    ((u.dropWhile Char.isDigit).isEmpty ||
      ((u.dropWhile Char.isDigit).head? == some '.' &&
        (u.dropWhile Char.isDigit).tail.all Char.isDigit))

/-- The numeric-token grammar: an optional single leading minus, then
IsTokCore.  This is the grammar -?\d+\.?\d* of the captured group. -/
def IsTok (t : List Char) : Bool :=
  if t.head? = some '-' then IsTokCore t.tail else IsTokCore t

/-- A string of whitespace only. -/
def IsWS (l : List Char) : Bool := l.all isSpace

/-- An optional single separator character, as numRE discards it. -/
def SepOpt (sep : List Char) : Prop :=
  sep = [] ∨ ∃ c, sep = [c] ∧ sepChar c = true

/-- What must follow a numeric token for the greedy matcher to end it
there: nothing, or a character that is not a digit and extends no token
(a dot extends only a token that has no dot yet). -/
def Boundary (t : List Char) (o : Option Char) : Prop :=
  ∀ c, o = some c → c.isDigit = false ∧ ('.' ∈ t ∨ c ≠ '.')

/-- Inter-token separator text as claim C1's input family supplies it: an
optional single separator character followed by whitespace (which the
next parameter group's leading \s* consumes). -/
def SepRun (sep : List Char) : Prop :=
  (∃ c ws, sep = c :: ws ∧ sepChar c = true ∧ IsWS ws = true) ∨ IsWS sep = true

/-- A numeric run as claim C1 describes it: one or more tokens of the
scanner grammar, consecutive tokens separated by non-empty separator
text.  The token list records the intended tokenisation. -/
inductive Run : List Char → List (List Char) → Prop
  | last (t : List Char) : IsTok t = true → Run t [t]
  | cons (t sep rest : List Char) (ts : List (List Char)) :
      IsTok t = true → SepRun sep → sep ≠ [] → Run rest ts →
      Run (t ++ (sep ++ rest)) (t :: ts)

/-- An input consisting solely of close commands, each optionally
followed by whitespace, as claim C7 describes it.  The letter list
records the matched close letters in order. -/
inductive CloseRun : List Char → List Char → Prop
  | nil : CloseRun [] []
  | cons (z : Char) (ws rest ls : List Char) :
      (z = 'z' ∨ z = 'Z') → IsWS ws = true → CloseRun rest ls →
      CloseRun (z :: (ws ++ rest)) (z :: ls)

/-- Modelled from the spec, for comparison with numRE only: one scanning
step of the numeric-token grammar exactly as claim C5 states it, with no
leading-whitespace skip and with only a comma or whitespace accepted as
the single discarded separator.  Returns the unconsumed rest. -/
def specNumStep (s : List Char) : Option (List Char) :=
  match numTok s with
  | none => none
  | some (_, s2) =>
    match s2 with
    | [] => some []
    | c :: r => if c = ',' || isSpace c then some r else some (c :: r)

/-- Modelled from the spec: fuelled repetition of specNumStep until the
input is exhausted; false when a step finds no token. -/
def specScanOkF : Nat → List Char → Bool
  | 0, d => d.isEmpty
  | fuel + 1, d =>
    if d = [] then true
    else
      match specNumStep d with
      | some r => specScanOkF fuel r
      | none => false

/-- Modelled from the spec: whether the claimed scanner grammar accepts
the whole input. -/
def specScanOk (d : List Char) : Bool := specScanOkF (d.length + 1) d

theorem head?_some_eq {l : List Char} {c : Char} (h : l.head? = some c) :
    l = c :: l.tail := by
  cases l with
  | nil => simp at h
  | cons x xs => simp at h; simp [h]

theorem tdw_append_all {p : Char → Bool} (a b : List Char) (ha : ∀ c ∈ a, p c = true) :
    (a ++ b).takeWhile p = a ++ b.takeWhile p ∧ (a ++ b).dropWhile p = b.dropWhile p := by
  induction a with
  | nil => simp
  | cons x xs ih =>
    have hx : p x = true := ha x (by simp)
    have h2 := ih (fun c hc => ha c (by simp [hc]))
    simp only [List.cons_append, List.takeWhile_cons, List.dropWhile_cons, hx, if_pos]
    exact ⟨by rw [h2.1], h2.2⟩

theorem tdw_stop {p : Char → Bool} (b : List Char)
    (hb : ∀ c, b.head? = some c → p c = false) :
    b.takeWhile p = [] ∧ b.dropWhile p = b := by
  cases b with
  | nil => simp
  | cons x xs =>
    have hx : p x = false := hb x rfl
    simp [List.takeWhile_cons, List.dropWhile_cons, hx]

theorem head?_dropWhile {p : Char → Bool} (l : List Char) :
    ∀ c, (l.dropWhile p).head? = some c → p c = false := by
  induction l with
  | nil => intro c hc; simp at hc
  | cons x xs ih =>
    intro c hc
    rw [List.dropWhile_cons] at hc
    by_cases hx : p x = true
    · rw [if_pos hx] at hc; exact ih c hc
    · rw [if_neg hx] at hc
      simp only [List.head?_cons, Option.some.injEq] at hc
      subst hc
      simpa using hx

theorem length_dropWhile_le {p : Char → Bool} (l : List Char) :
    (l.dropWhile p).length ≤ l.length := by
  induction l with
  | nil => simp
  | cons x xs ih =>
    rw [List.dropWhile_cons]
    by_cases hx : p x = true
    · rw [if_pos hx]; exact Nat.le_trans ih (by simp)
    · rw [if_neg hx]

theorem takeWhile_ne_nil_head {p : Char → Bool} {l : List Char}
    (h : l.takeWhile p ≠ []) : ∃ c, l.head? = some c ∧ p c = true := by
  cases l with
  | nil => simp at h
  | cons x xs =>
    rw [List.takeWhile_cons] at h
    by_cases hx : p x = true
    · exact ⟨x, rfl, hx⟩
    · rw [if_neg hx] at h; exact absurd rfl h

theorem isSpace_not_digit {c : Char} (h : isSpace c = true) : c.isDigit = false := by
  simp only [isSpace, Bool.or_eq_true, decide_eq_true_eq] at h
  rcases h with (((h | h) | h) | h) | h <;> subst h <;> decide

theorem digit_not_space {c : Char} (h : c.isDigit = true) : isSpace c = false := by
  by_contra hsp
  simp only [Bool.not_eq_false] at hsp
  rw [isSpace_not_digit hsp] at h
  exact absurd h (by simp)

theorem sepChar_not_digit {c : Char} (h : sepChar c = true) :
    c.isDigit = false ∧ c ≠ '.' := by
  simp only [sepChar, Bool.or_eq_true, decide_eq_true_eq] at h
  rcases h with (h | h) | h
  · subst h; exact ⟨by decide, by decide⟩
  · subst h; exact ⟨by decide, by decide⟩
  · refine ⟨isSpace_not_digit h, ?_⟩
    intro hc; subst hc; exact absurd h (by decide)

theorem tw_all_digit (l : List Char) : (l.takeWhile Char.isDigit).all Char.isDigit = true :=
  List.all_eq_true.mpr fun _ hx => List.mem_takeWhile_imp hx

theorem numTokCore_sound {neg s1 t r : List Char}
    (h : numTokCore neg s1 = some (t, r)) :
    neg ++ s1 = t ++ r ∧
    ∃ d1 dp, t = neg ++ d1 ++ dp ∧ d1 ≠ [] ∧ d1.all Char.isDigit = true ∧
      ((dp = [] ∧ ∀ c, r.head? = some c → c.isDigit = false ∧ c ≠ '.') ∨
       (∃ d2, dp = '.' :: d2 ∧ d2.all Char.isDigit = true ∧
         ∀ c, r.head? = some c → c.isDigit = false)) := by
  unfold numTokCore at h
  by_cases h1 : s1.takeWhile Char.isDigit = []
  · rw [if_pos h1] at h; exact absurd h (by simp)
  · rw [if_neg h1] at h
    by_cases h2 : (s1.dropWhile Char.isDigit).head? = some '.'
    · rw [if_pos h2] at h
      simp only [Option.some.injEq, Prod.mk.injEq] at h
      obtain ⟨ht, hr⟩ := h
      have hsplit : s1.takeWhile Char.isDigit ++ s1.dropWhile Char.isDigit = s1 :=
        List.takeWhile_append_dropWhile _ _
      have hdw : s1.dropWhile Char.isDigit = '.' :: (s1.dropWhile Char.isDigit).tail :=
        head?_some_eq h2
      have htl : (s1.dropWhile Char.isDigit).tail.takeWhile Char.isDigit ++
          (s1.dropWhile Char.isDigit).tail.dropWhile Char.isDigit =
          (s1.dropWhile Char.isDigit).tail := List.takeWhile_append_dropWhile _ _
      constructor
      · rw [← ht, ← hr]
        have hx : '.' :: (s1.dropWhile Char.isDigit).tail =
            '.' :: ((s1.dropWhile Char.isDigit).tail.takeWhile Char.isDigit ++
              (s1.dropWhile Char.isDigit).tail.dropWhile Char.isDigit) := by rw [htl]
        conv_lhs => rw [← hsplit, hdw, hx]
        simp
      · refine ⟨s1.takeWhile Char.isDigit,
          '.' :: (s1.dropWhile Char.isDigit).tail.takeWhile Char.isDigit, ?_, h1,
          tw_all_digit _, Or.inr ⟨_, rfl, tw_all_digit _, ?_⟩⟩
        · exact ht.symm
        · intro c hc; rw [← hr] at hc; exact head?_dropWhile _ c hc
    · rw [if_neg h2] at h
      simp only [Option.some.injEq, Prod.mk.injEq] at h
      obtain ⟨ht, hr⟩ := h
      have hsplit : s1.takeWhile Char.isDigit ++ s1.dropWhile Char.isDigit = s1 :=
        List.takeWhile_append_dropWhile _ _
      constructor
      · rw [← ht, ← hr]
        conv_lhs => rw [← hsplit]
        simp
      · refine ⟨s1.takeWhile Char.isDigit, [], by rw [← ht]; simp, h1,
          tw_all_digit _, Or.inl ⟨rfl, ?_⟩⟩
        intro c hc
        rw [← hr] at hc
        refine ⟨head?_dropWhile _ c hc, ?_⟩
        intro hdot
        subst hdot
        exact h2 hc

theorem isTokCore_build {d1 dp : List Char} (h1 : d1 ≠ [])
    (hd : d1.all Char.isDigit = true)
    (hdp : dp = [] ∨ ∃ d2, dp = '.' :: d2 ∧ d2.all Char.isDigit = true) :
    IsTokCore (d1 ++ dp) = true := by
  have hall : ∀ c ∈ d1, Char.isDigit c = true := List.all_eq_true.mp hd
  rcases hdp with hdp | ⟨d2, hdp, hd2⟩
  · subst hdp
    have := tdw_append_all d1 [] hall
    simp only [List.append_nil] at this ⊢
    simp [IsTokCore, this.1, this.2, h1]
  · subst hdp
    have hstep := tdw_append_all d1 ('.' :: d2) hall
    have hstop : ('.' :: d2).takeWhile Char.isDigit = [] ∧
        ('.' :: d2).dropWhile Char.isDigit = '.' :: d2 :=
      tdw_stop _ (by intro c hc; simp at hc; subst hc; decide)
    simp [IsTokCore, hstep.1, hstep.2, hstop.1, hstop.2, h1, hd2]

theorem isTok_of_decomp {neg d1 dp : List Char}
    (hneg : neg = [] ∨ neg = ['-']) (h1 : d1 ≠ [])
    (hd : d1.all Char.isDigit = true)
    (hdp : dp = [] ∨ ∃ d2, dp = '.' :: d2 ∧ d2.all Char.isDigit = true) :
    IsTok (neg ++ d1 ++ dp) = true := by
  have hcore := isTokCore_build h1 hd hdp
  rcases hneg with hneg | hneg
  · subst hneg
    simp only [List.nil_append]
    cases d1 with
    | nil => exact absurd rfl h1
    | cons x xs =>
      have hx : x.isDigit = true := (List.all_eq_true.mp hd) x (by simp)
      have hxm : x ≠ '-' := by intro hh; rw [hh] at hx; exact absurd hx (by decide)
      have hcond : ¬ ((x :: (xs ++ dp)).head? = some '-') := by
        simp only [List.head?_cons, Option.some.injEq]; exact hxm
      simp only [IsTok, List.cons_append, if_neg hcond]
      simpa using hcore
  · subst hneg
    simp only [IsTok, List.cons_append, List.nil_append, List.head?_cons,
      List.tail_cons, if_pos]
    simpa using hcore

theorem numTok_sound_aux {neg s1 t r : List Char} (hneg : neg = [] ∨ neg = ['-'])
    (h : numTokCore neg s1 = some (t, r)) :
    neg ++ s1 = t ++ r ∧ t ≠ [] ∧ IsTok t = true ∧ Boundary t r.head? := by
  obtain ⟨heq, d1, dp, ht, h1, hd, hbr⟩ := numTokCore_sound h
  have hdp : dp = [] ∨ ∃ d2, dp = '.' :: d2 ∧ d2.all Char.isDigit = true := by
    rcases hbr with ⟨hdp, _⟩ | ⟨d2, hdp, hd2, _⟩
    · exact Or.inl hdp
    · exact Or.inr ⟨d2, hdp, hd2⟩
  have hne : t ≠ [] := by
    intro h0
    have h5 : neg ++ d1 ++ dp = [] := by rw [← ht, h0]
    rcases List.append_eq_nil.mp h5 with ⟨h6, _⟩
    rcases List.append_eq_nil.mp h6 with ⟨_, h7⟩
    exact h1 h7
  refine ⟨heq, hne, by rw [ht]; exact isTok_of_decomp hneg h1 hd hdp, ?_⟩
  intro c hc
  rcases hbr with ⟨_, hb⟩ | ⟨d2, hdp2, _, hb⟩
  · exact ⟨(hb c hc).1, Or.inr (hb c hc).2⟩
  · refine ⟨hb c hc, Or.inl ?_⟩
    rw [ht, hdp2]
    simp

theorem numTok_sound {s t r : List Char} (h : numTok s = some (t, r)) :
    s = t ++ r ∧ t ≠ [] ∧ IsTok t = true ∧ Boundary t r.head? := by
  unfold numTok at h
  by_cases hm : s.head? = some '-'
  · rw [if_pos hm] at h
    have res := numTok_sound_aux (Or.inr rfl) h
    refine ⟨?_, res.2⟩
    rw [head?_some_eq hm]
    exact res.1
  · rw [if_neg hm] at h
    exact numTok_sound_aux (Or.inl rfl) h

theorem isTok_head {t : List Char} (h : IsTok t = true) :
    ∃ c, t.head? = some c ∧ (c = '-' ∨ c.isDigit = true) := by
  unfold IsTok at h
  by_cases hm : t.head? = some '-'
  · exact ⟨'-', hm, Or.inl rfl⟩
  · rw [if_neg hm] at h
    unfold IsTokCore at h
    have h1 : t.takeWhile Char.isDigit ≠ [] := by
      intro h0
      rw [h0] at h
      simp at h
    obtain ⟨c, hc, hcd⟩ := takeWhile_ne_nil_head h1
    exact ⟨c, hc, Or.inr hcd⟩

theorem isTok_ne_nil {t : List Char} (h : IsTok t = true) : t ≠ [] := by
  obtain ⟨c, hc, _⟩ := isTok_head h
  intro h0
  rw [h0] at hc
  simp at hc

theorem isTok_head_not_space {t : List Char} (h : IsTok t = true) :
    ∀ c, t.head? = some c → isSpace c = false := by
  obtain ⟨c0, hc0, hd⟩ := isTok_head h
  intro c hc
  rw [hc0] at hc
  injection hc with hc
  subst hc
  rcases hd with hd | hd
  · subst hd; decide
  · exact digit_not_space hd

theorem cmdLetter_not_close {c : Char} (h : cmdLetter c = true)
    (hz : c = 'z' ∨ c = 'Z') : False := by
  rcases hz with hz | hz <;> subst hz <;> exact absurd h (by decide)

theorem isTokCore_dest {u : List Char} (h : IsTokCore u = true) :
    u.takeWhile Char.isDigit ≠ [] ∧
    (u.dropWhile Char.isDigit = [] ∨
      (u.dropWhile Char.isDigit).head? = some '.' ∧
        (u.dropWhile Char.isDigit).tail.all Char.isDigit = true) := by
  unfold IsTokCore at h
  simp only [Bool.and_eq_true, Bool.or_eq_true, Bool.not_eq_true',
    List.isEmpty_eq_true, beq_iff_eq] at h
  obtain ⟨h1, h2⟩ := h
  refine ⟨?_, ?_⟩
  · intro h0
    rw [h0] at h1
    simp at h1
  · rcases h2 with h2 | h2
    · exact Or.inl h2
    · exact Or.inr ⟨h2.1, h2.2⟩

theorem numTokCore_replay {u X : List Char} (neg : List Char)
    (hu : IsTokCore u = true)
    (hb : ∀ c, X.head? = some c → c.isDigit = false ∧ ('.' ∈ u ∨ c ≠ '.')) :
    numTokCore neg (u ++ X) = some (neg ++ u, X) := by
  obtain ⟨h1, h2⟩ := isTokCore_dest hu
  have hXd : ∀ c, X.head? = some c → Char.isDigit c = false := fun c hc => (hb c hc).1
  have hXstop := tdw_stop X hXd
  rcases h2 with h2 | ⟨h2, h3⟩
  · have hu_eq : u.takeWhile Char.isDigit = u := by
      conv_rhs => rw [← List.takeWhile_append_dropWhile Char.isDigit u]
      rw [h2, List.append_nil]
    have hall : ∀ c ∈ u, Char.isDigit c = true := by
      intro c hc
      rw [← hu_eq] at hc
      exact List.mem_takeWhile_imp hc
    have happ := tdw_append_all u X hall
    have htw : (u ++ X).takeWhile Char.isDigit = u := by
      rw [happ.1, hXstop.1, List.append_nil]
    have hdw : (u ++ X).dropWhile Char.isDigit = X := by rw [happ.2, hXstop.2]
    have hune : ¬ (u = []) := by
      intro h0
      rw [hu_eq, h0] at h1
      exact h1 rfl
    have hnodot : ¬ (X.head? = some '.') := by
      intro hdot
      rcases (hb '.' hdot).2 with hin | hne
      · have hdd : Char.isDigit '.' = true := hall '.' hin
        exact absurd hdd (by decide)
      · exact hne rfl
    unfold numTokCore
    rw [htw, hdw, if_neg hune, if_neg hnodot]
  · obtain ⟨d2, hd2eq⟩ : ∃ d2, u.dropWhile Char.isDigit = '.' :: d2 :=
      ⟨_, head?_some_eq h2⟩
    have h3' : d2.all Char.isDigit = true := by
      rw [hd2eq] at h3
      simpa using h3
    have hu2 : u = u.takeWhile Char.isDigit ++ '.' :: d2 := by
      conv_lhs => rw [← List.takeWhile_append_dropWhile Char.isDigit u, hd2eq]
    have hall1 : ∀ c ∈ u.takeWhile Char.isDigit, Char.isDigit c = true :=
      fun _ hc => List.mem_takeWhile_imp hc
    have hall2 : ∀ c ∈ d2, Char.isDigit c = true := List.all_eq_true.mp h3'
    have harr : u ++ X = u.takeWhile Char.isDigit ++ '.' :: (d2 ++ X) := by
      conv_lhs => rw [hu2]
      simp
    have hstep := tdw_append_all (u.takeWhile Char.isDigit) ('.' :: (d2 ++ X)) hall1
    have hdot_stop := tdw_stop (p := Char.isDigit) ('.' :: (d2 ++ X))
      (by intro c hc; simp at hc; subst hc; decide)
    have htw : (u ++ X).takeWhile Char.isDigit = u.takeWhile Char.isDigit := by
      rw [harr, hstep.1, hdot_stop.1, List.append_nil]
    have hdw : (u ++ X).dropWhile Char.isDigit = '.' :: (d2 ++ X) := by
      rw [harr, hstep.2, hdot_stop.2]
    have hstep2 := tdw_append_all d2 X hall2
    have htw2 : (d2 ++ X).takeWhile Char.isDigit = d2 := by
      rw [hstep2.1, hXstop.1, List.append_nil]
    have hdw2 : (d2 ++ X).dropWhile Char.isDigit = X := by rw [hstep2.2, hXstop.2]
    unfold numTokCore
    rw [htw, hdw, if_neg h1, if_pos (by simp)]
    simp only [List.tail_cons, List.head?_cons, htw2, hdw2, Option.some.injEq,
      Prod.mk.injEq]
    constructor
    · conv_rhs => rw [hu2]
      simp
    · trivial

theorem numTok_replay {t X : List Char} (ht : IsTok t = true)
    (hb : Boundary t X.head?) : numTok (t ++ X) = some (t, X) := by
  unfold IsTok at ht
  by_cases hm : t.head? = some '-'
  · rw [if_pos hm] at ht
    have hteq : t = '-' :: t.tail := head?_some_eq hm
    have hhead : (t ++ X).head? = some '-' := by rw [hteq]; rfl
    have htail : (t ++ X).tail = t.tail ++ X := by rw [hteq]; rfl
    have hb2 : ∀ c, X.head? = some c → c.isDigit = false ∧ ('.' ∈ t.tail ∨ c ≠ '.') := by
      intro c hc
      refine ⟨(hb c hc).1, ?_⟩
      rcases (hb c hc).2 with hin | hne
      · left
        rw [hteq] at hin
        rcases List.mem_cons.mp hin with h0 | h0
        · exact absurd h0 (by decide)
        · exact h0
      · right; exact hne
    unfold numTok
    rw [if_pos hhead, htail, numTokCore_replay ['-'] ht hb2]
    conv_rhs => rw [hteq]
    rfl
  · rw [if_neg hm] at ht
    have hne : t ≠ [] := by
      intro h0
      rw [h0] at ht
      exact absurd ht (by decide)
    have hh : (t ++ X).head? = t.head? := by
      cases t with
      | nil => exact absurd rfl hne
      | cons a l => rfl
    unfold numTok
    rw [hh, if_neg hm]
    have hb2 : ∀ c, X.head? = some c → c.isDigit = false ∧ ('.' ∈ t ∨ c ≠ '.') :=
      fun c hc => hb c hc
    simpa using numTokCore_replay [] ht hb2

theorem tw_append_ne_nil {p : Char → Bool} {a : List Char} (b : List Char)
    (h : a.takeWhile p ≠ []) : (a ++ b).takeWhile p ≠ [] := by
  obtain ⟨c, hc, hpc⟩ := takeWhile_ne_nil_head h
  have ha : a = c :: a.tail := head?_some_eq hc
  rw [ha, List.cons_append, List.takeWhile_cons, if_pos hpc]
  simp

theorem numTokCore_isSome {neg s1 : List Char}
    (h : s1.takeWhile Char.isDigit ≠ []) : (numTokCore neg s1).isSome = true := by
  unfold numTokCore
  rw [if_neg h]
  by_cases h2 : (s1.dropWhile Char.isDigit).head? = some '.'
  · rw [if_pos h2]; rfl
  · rw [if_neg h2]; rfl

theorem isTok_tw_ne_nil {t : List Char} (ht : IsTok t = true) :
    (if t.head? = some '-' then t.tail.takeWhile Char.isDigit ≠ []
     else t.takeWhile Char.isDigit ≠ []) := by
  unfold IsTok at ht
  by_cases hm : t.head? = some '-'
  · rw [if_pos hm] at ht
    rw [if_pos hm]
    exact (isTokCore_dest ht).1
  · rw [if_neg hm] at ht
    rw [if_neg hm]
    exact (isTokCore_dest ht).1

theorem numTok_accepts {t : List Char} (X : List Char) (ht : IsTok t = true) :
    (numTok (t ++ X)).isSome = true := by
  have hne := isTok_ne_nil ht
  have hh : (t ++ X).head? = t.head? := by
    cases t with
    | nil => exact absurd rfl hne
    | cons a l => rfl
  have htw := isTok_tw_ne_nil ht
  unfold numTok
  rw [hh]
  by_cases hm : t.head? = some '-'
  · rw [if_pos hm]
    rw [if_pos hm] at htw
    have hteq : t = '-' :: t.tail := head?_some_eq hm
    have htail : (t ++ X).tail = t.tail ++ X := by rw [hteq]; rfl
    rw [htail]
    exact numTokCore_isSome (tw_append_ne_nil X htw)
  · rw [if_neg hm]
    rw [if_neg hm] at htw
    exact numTokCore_isSome (tw_append_ne_nil X htw)

theorem numRE_sound {s g t r : List Char} (h : numRE s = some (g, t, r)) :
    s = g ++ r ∧ IsTok t = true ∧
    ∃ ws sep, g = ws ++ t ++ sep ∧ IsWS ws = true ∧
      ((sep = [] ∧ Boundary t r.head? ∧ (∀ c, r.head? = some c → sepChar c = false)) ∨
       (∃ c, sep = [c] ∧ sepChar c = true)) := by
  have hws_all : IsWS (s.takeWhile isSpace) = true :=
    List.all_eq_true.mpr fun _ hx => List.mem_takeWhile_imp hx
  have hsplit : s.takeWhile isSpace ++ s.dropWhile isSpace = s :=
    List.takeWhile_append_dropWhile _ _
  simp only [numRE] at h
  cases hnt : numTok (s.dropWhile isSpace) with
  | none => rw [hnt] at h; exact absurd h (by simp)
  | some p =>
    obtain ⟨t0, s2⟩ := p
    rw [hnt] at h
    obtain ⟨hts, ht0ne, hIsTok, hbound⟩ := numTok_sound hnt
    cases s2 with
    | nil =>
      simp only [Option.some.injEq, Prod.mk.injEq] at h
      obtain ⟨hg, ht, hr⟩ := h
      subst ht
      refine ⟨?_, hIsTok, s.takeWhile isSpace, [], by rw [← hg]; simp, hws_all,
        Or.inl ⟨rfl, ?_, ?_⟩⟩
      · rw [← hg, ← hr]
        conv_lhs => rw [← hsplit, hts]
        simp
      · rw [← hr]
        intro c hc
        simp at hc
      · rw [← hr]
        intro c hc
        simp at hc
    | cons c rest =>
      have h2 : (if sepChar c = true
          then some (s.takeWhile isSpace ++ t0 ++ [c], t0, rest)
          else some (s.takeWhile isSpace ++ t0, t0, c :: rest)) = some (g, t, r) := h
      by_cases hc : sepChar c = true
      · rw [if_pos hc] at h2
        simp only [Option.some.injEq, Prod.mk.injEq] at h2
        obtain ⟨hg, ht, hr⟩ := h2
        subst ht
        refine ⟨?_, hIsTok, s.takeWhile isSpace, [c], hg.symm, hws_all,
          Or.inr ⟨c, rfl, hc⟩⟩
        rw [← hg, ← hr]
        conv_lhs => rw [← hsplit, hts]
        simp
      · rw [if_neg hc] at h2
        simp only [Option.some.injEq, Prod.mk.injEq] at h2
        obtain ⟨hg, ht, hr⟩ := h2
        subst ht
        refine ⟨?_, hIsTok, s.takeWhile isSpace, [], by rw [← hg]; simp, hws_all,
          Or.inl ⟨rfl, ?_, ?_⟩⟩
        · rw [← hg, ← hr]
          conv_lhs => rw [← hsplit, hts]
          simp
        · rw [← hr]
          exact hbound
        · rw [← hr]
          intro c2 hc2
          simp only [List.head?_cons, Option.some.injEq] at hc2
          subst hc2
          simpa using hc
theorem numRE_length {s g t r : List Char} (h : numRE s = some (g, t, r)) :
    r.length < s.length := by
  obtain ⟨hs, hIsTok, ws, sep, hg, _, _⟩ := numRE_sound h
  have htne := isTok_ne_nil hIsTok
  have hgne : g ≠ [] := by
    rw [hg]
    intro h0
    rcases List.append_eq_nil.mp h0 with ⟨h1, _⟩
    rcases List.append_eq_nil.mp h1 with ⟨_, h2⟩
    exact htne h2
  have hpos : 0 < g.length := List.length_pos.mpr hgne
  rw [hs, List.length_append]
  omega

theorem head?_append_left {t : List Char} (X : List Char) (h : t ≠ []) :
    (t ++ X).head? = t.head? := by
  cases t with
  | nil => exact absurd rfl h
  | cons a l => rfl

theorem numRE_replay {s g t r : List Char} (h : numRE s = some (g, t, r))
    (r' : List Char) (hr' : r' = [] ∨ r'.head? = r.head?) :
    numRE (g ++ r') = some (g, t, r') := by
  obtain ⟨hs, hIsTok, ws, sep, hg, hws, hsep⟩ := numRE_sound h
  have hall := List.all_eq_true.mp hws
  have htne := isTok_ne_nil hIsTok
  rcases hsep with ⟨hsep0, hb, hsc⟩ | ⟨c, hsepc, hcsep⟩
  · subst hsep0
    rw [List.append_nil] at hg
    rcases hr' with hr0 | hrh
    · subst hr0
      rw [List.append_nil]
      have hstop := tdw_stop (p := isSpace) t (isTok_head_not_space hIsTok)
      have htw : g.takeWhile isSpace = ws := by
        rw [hg, (tdw_append_all ws t hall).1, hstop.1, List.append_nil]
      have hdw : g.dropWhile isSpace = t := by
        rw [hg, (tdw_append_all ws t hall).2, hstop.2]
      have hnt : numTok t = some (t, []) := by
        have := numTok_replay hIsTok (X := []) (by intro c hc; simp at hc)
        simpa using this
      simp only [numRE]
      rw [htw, hdw, hnt, hg]
    · cases r' with
        | nil =>
          rw [List.append_nil]
          have hstop := tdw_stop (p := isSpace) t (isTok_head_not_space hIsTok)
          have htw : g.takeWhile isSpace = ws := by
            rw [hg, (tdw_append_all ws t hall).1, hstop.1, List.append_nil]
          have hdw : g.dropWhile isSpace = t := by
            rw [hg, (tdw_append_all ws t hall).2, hstop.2]
          have hnt : numTok t = some (t, []) := by
            have h9 := numTok_replay hIsTok (X := []) (by intro c hc; simp at hc)
            simpa using h9
          simp only [numRE]
          rw [htw, hdw, hnt, hg]
        | cons c2 rtl =>
          have hr2 : r.head? = some c2 := by rw [← hrh]; rfl
          have hbnd : Boundary t (c2 :: rtl).head? := by
            intro c3 hc3
            simp only [List.head?_cons, Option.some.injEq] at hc3
            subst hc3
            exact hb c2 hr2
          have harr : g ++ (c2 :: rtl) = ws ++ (t ++ (c2 :: rtl)) := by
            rw [hg, List.append_assoc]
          have hstop := tdw_stop (p := isSpace) (t ++ (c2 :: rtl)) (fun c3 hc3 => by
            rw [head?_append_left (c2 :: rtl) htne] at hc3
            exact isTok_head_not_space hIsTok c3 hc3)
          have htw : (g ++ (c2 :: rtl)).takeWhile isSpace = ws := by
            rw [harr, (tdw_append_all ws (t ++ (c2 :: rtl)) hall).1, hstop.1,
              List.append_nil]
          have hdw : (g ++ (c2 :: rtl)).dropWhile isSpace = t ++ (c2 :: rtl) := by
            rw [harr, (tdw_append_all ws (t ++ (c2 :: rtl)) hall).2, hstop.2]
          have hnt : numTok (t ++ (c2 :: rtl)) = some (t, c2 :: rtl) :=
            numTok_replay hIsTok hbnd
          simp only [numRE]
          rw [htw, hdw, hnt]
          have hns : sepChar c2 = false := hsc c2 hr2
          show (if sepChar c2 = true then some (ws ++ t ++ [c2], t, rtl)
            else some (ws ++ t, t, c2 :: rtl)) = some (g, t, c2 :: rtl)
          rw [if_neg (by rw [hns]; exact Bool.false_ne_true), hg]
  · subst hsepc
    have harr : g ++ r' = ws ++ (t ++ (c :: r')) := by
      rw [hg]
      simp
    have hbnd : Boundary t (c :: r').head? := by
      intro c3 hc3
      simp only [List.head?_cons, Option.some.injEq] at hc3
      subst hc3
      exact ⟨(sepChar_not_digit hcsep).1, Or.inr (sepChar_not_digit hcsep).2⟩
    have hstop := tdw_stop (p := isSpace) (t ++ (c :: r')) (fun c3 hc3 => by
      rw [head?_append_left (c :: r') htne] at hc3
      exact isTok_head_not_space hIsTok c3 hc3)
    have htw : (g ++ r').takeWhile isSpace = ws := by
      rw [harr, (tdw_append_all ws (t ++ (c :: r')) hall).1, hstop.1, List.append_nil]
    have hdw : (g ++ r').dropWhile isSpace = t ++ (c :: r') := by
      rw [harr, (tdw_append_all ws (t ++ (c :: r')) hall).2, hstop.2]
    have hnt : numTok (t ++ (c :: r')) = some (t, c :: r') := numTok_replay hIsTok hbnd
    simp only [numRE]
    rw [htw, hdw, hnt]
    show (if sepChar c = true then some (ws ++ t ++ [c], t, r')
      else some (ws ++ t, t, c :: r')) = some (g, t, r')
    rw [if_pos hcsep, hg]

theorem numRE_ws_shift {ws : List Char} (s : List Char) (hws : IsWS ws = true) :
    numRE (ws ++ s) = match numRE s with
      | none => none
      | some (g, t, r) => some (ws ++ g, t, r) := by
  have hall := List.all_eq_true.mp hws
  have happ := tdw_append_all ws s hall
  simp only [numRE]
  rw [happ.1, happ.2]
  cases hnt : numTok (s.dropWhile isSpace) with
  | none => rfl
  | some p =>
    obtain ⟨t, s2⟩ := p
    cases s2 with
    | nil => simp
    | cons c r2 =>
      by_cases hc : sepChar c = true <;> simp [hc]

theorem numRE_accepts {ws t : List Char} (rest : List Char)
    (hws : IsWS ws = true) (ht : IsTok t = true) :
    (numRE (ws ++ (t ++ rest))).isSome = true := by
  have hall := List.all_eq_true.mp hws
  have happ := tdw_append_all ws (t ++ rest) hall
  have hstop := tdw_stop (p := isSpace) (t ++ rest) (fun c hc => by
    rw [head?_append_left rest (isTok_ne_nil ht)] at hc
    exact isTok_head_not_space ht c hc)
  have hdw : (ws ++ (t ++ rest)).dropWhile isSpace = t ++ rest := by
    rw [happ.2, hstop.2]
  simp only [numRE]
  rw [hdw]
  have hacc := numTok_accepts rest ht
  cases hnt : numTok (t ++ rest) with
  | none => rw [hnt] at hacc; simp at hacc
  | some p =>
    obtain ⟨t2, s2⟩ := p
    cases s2 with
    | nil => rfl
    | cons c r2 =>
      by_cases hc : sepChar c = true <;> simp [hc]

theorem numRE_consumes {s g t r : List Char} (h : numRE s = some (g, t, r)) :
    g ≠ [] := by
  obtain ⟨_, hIsTok, ws, sep, hg, _, _⟩ := numRE_sound h
  have htne := isTok_ne_nil hIsTok
  rw [hg]
  intro h0
  rcases List.append_eq_nil.mp h0 with ⟨h1, _⟩
  rcases List.append_eq_nil.mp h1 with ⟨_, h2⟩
  exact htne h2

theorem runManyF_zero (s : List Char) : runManyF 0 s = ([], [], s) := rfl

theorem runManyF_none {s : List Char} (fuel : Nat) (h : numRE s = none) :
    runManyF (fuel + 1) s = ([], [], s) := by
  unfold runManyF
  rw [h]

theorem runManyF_cons {s g t r : List Char} (fuel : Nat)
    (h : numRE s = some (g, t, r)) :
    runManyF (fuel + 1) s =
      (g ++ (runManyF fuel r).1, t :: (runManyF fuel r).2.1, (runManyF fuel r).2.2) := by
  simp only [runManyF]
  rw [h]

theorem runManyF_sound (fuel : Nat) :
    ∀ s, s = (runManyF fuel s).1 ++ (runManyF fuel s).2.2 := by
  induction fuel with
  | zero => intro s; rfl
  | succ n ih =>
    intro s
    cases hnt : numRE s with
    | none => rw [runManyF_none n hnt]; rfl
    | some p =>
      obtain ⟨g, t, r⟩ := p
      rw [runManyF_cons n hnt]
      have h1 := (numRE_sound hnt).1
      conv_lhs => rw [h1, ih r]
      simp

theorem runManyF_irrel (f1 : Nat) :
    ∀ (s : List Char) (f2 : Nat), s.length < f1 → s.length < f2 →
      runManyF f1 s = runManyF f2 s := by
  induction f1 with
  | zero => intro s f2 h1 h2; omega
  | succ n ih =>
    intro s f2 h1 h2
    cases f2 with
    | zero => omega
    | succ m =>
      cases hnt : numRE s with
      | none => rw [runManyF_none n hnt, runManyF_none m hnt]
      | some p =>
        obtain ⟨g, t, r⟩ := p
        have hlen := numRE_length hnt
        rw [runManyF_cons n hnt, runManyF_cons m hnt,
          ih r m (by omega) (by omega)]

theorem runMany_none {s : List Char} (h : numRE s = none) :
    runMany s = ([], [], s) := runManyF_none _ h

theorem runMany_cons {s g t r : List Char} (h : numRE s = some (g, t, r)) :
    runMany s = (g ++ (runMany r).1, t :: (runMany r).2.1, (runMany r).2.2) := by
  have hlen := numRE_length h
  unfold runMany
  rw [runManyF_cons _ h]
  rw [runManyF_irrel s.length r (r.length + 1) (by omega) (by omega)]

theorem runMany_sound (s : List Char) :
    s = (runMany s).1 ++ (runMany s).2.2 := runManyF_sound _ s

theorem runMany_head (s : List Char) :
    (runMany s).1 = [] ∨ (runMany s).1.head? = s.head? := by
  cases hnt : numRE s with
  | none => rw [runMany_none hnt]; exact Or.inl rfl
  | some p =>
    obtain ⟨g, t, r⟩ := p
    rw [runMany_cons hnt]
    right
    have hg := numRE_consumes hnt
    have hs := (numRE_sound hnt).1
    rw [head?_append_left _ hg, hs, head?_append_left _ hg]

theorem parseParamsF_nil (f : Nat) : parseParamsF f [] = .ok [] := by
  cases f with
  | zero => rfl
  | succ n => unfold parseParamsF; rw [if_pos rfl]

theorem parseParamsF_noMatch {d : List Char} (f : Nat) (hne : d ≠ [])
    (hnum : numRE d = none) :
    parseParamsF (f + 1) d = .error (.badParams d) := by
  unfold parseParamsF
  rw [if_neg hne, hnum]

theorem parseParamsF_bad {d g t r : List Char} (f : Nat) (hne : d ≠ [])
    (hnum : numRE d = some (g, t, r)) (hat : atof t = none) :
    parseParamsF (f + 1) d = .error (.badFloat t) := by
  simp only [parseParamsF]
  rw [if_neg hne, hnum]
  show (match atof t with
    | some v => match parseParamsF f r with
      | Except.ok vs => Except.ok (v :: vs)
      | Except.error e => Except.error e
    | none => Except.error (Fatalf.badFloat t)) = Except.error (Fatalf.badFloat t)
  rw [hat]

theorem parseParamsF_cons {d g t r : List Char} {v : ℚ} (f : Nat) (hne : d ≠ [])
    (hnum : numRE d = some (g, t, r)) (hat : atof t = some v) :
    parseParamsF (f + 1) d = match parseParamsF f r with
      | .ok vs => .ok (v :: vs)
      | .error e => .error e := by
  simp only [parseParamsF]
  rw [if_neg hne, hnum]
  show (match atof t with
    | some v => match parseParamsF f r with
      | Except.ok vs => Except.ok (v :: vs)
      | Except.error e => Except.error e
    | none => Except.error (Fatalf.badFloat t)) = match parseParamsF f r with
      | Except.ok vs => Except.ok (v :: vs)
      | Except.error e => Except.error e
  rw [hat]

theorem parseParamsF_irrel (f1 : Nat) :
    ∀ (d : List Char) (f2 : Nat), d.length < f1 → d.length < f2 →
      parseParamsF f1 d = parseParamsF f2 d := by
  induction f1 with
  | zero => intro d f2 h1 h2; omega
  | succ n ih =>
    intro d f2 h1 h2
    cases f2 with
    | zero => omega
    | succ m =>
      by_cases hd : d = []
      · subst hd
        rw [parseParamsF_nil, parseParamsF_nil]
      · cases hnt : numRE d with
        | none => rw [parseParamsF_noMatch n hd hnt, parseParamsF_noMatch m hd hnt]
        | some p =>
          obtain ⟨g, t, r⟩ := p
          have hlen := numRE_length hnt
          cases hat : atof t with
          | none => rw [parseParamsF_bad n hd hnt hat, parseParamsF_bad m hd hnt hat]
          | some v =>
            rw [parseParamsF_cons n hd hnt hat, parseParamsF_cons m hd hnt hat,
              ih r m (by omega) (by omega)]

theorem runMany_parseParamsF (fuel : Nat) :
    ∀ s, s.length < fuel →
      (∀ t ∈ (runManyF fuel s).2.1, (atof t).isSome = true) →
      parseParams (runManyF fuel s).1 = .ok ((runManyF fuel s).2.1.map atofVal) := by
  induction fuel with
  | zero => intro s h; omega
  | succ n ih =>
    intro s hs hfit
    cases hnt : numRE s with
    | none =>
      rw [runManyF_none n hnt]
      exact parseParamsF_nil _
    | some p =>
      obtain ⟨g, t, r⟩ := p
      rw [runManyF_cons n hnt] at hfit ⊢
      have hlen := numRE_length hnt
      have hg := numRE_consumes hnt
      obtain ⟨v, hat⟩ : ∃ v, atof t = some v := by
        have h9 := hfit t (by simp)
        cases h0 : atof t with
        | none => rw [h0] at h9; simp at h9
        | some v => exact ⟨v, rfl⟩
      have hcond : (runManyF n r).1 = [] ∨ (runManyF n r).1.head? = r.head? := by
        have h9 : runManyF n r = runMany r :=
          runManyF_irrel n r (r.length + 1) (by omega) (by omega)
        rw [h9]
        exact runMany_head r
      have hrep : numRE (g ++ (runManyF n r).1) = some (g, t, (runManyF n r).1) :=
        numRE_replay hnt _ hcond
      have hne : g ++ (runManyF n r).1 ≠ [] := by
        intro h0
        exact hg (List.append_eq_nil.mp h0).1
      have hih := ih r (by omega) (fun t2 ht2 => hfit t2 (by simp [ht2]))
      unfold parseParams at hih ⊢
      rw [parseParamsF_cons _ hne hrep hat]
      have hpos : 0 < g.length := List.length_pos.mpr hg
      rw [parseParamsF_irrel (g ++ (runManyF n r).1).length (runManyF n r).1
        ((runManyF n r).1.length + 1) (by rw [List.length_append]; omega) (by omega)]
      rw [hih]
      have hval : atofVal t = v := by unfold atofVal; rw [hat]; rfl
      rw [List.map_cons, hval]

theorem runMany_parseParamsF_err (fuel : Nat) :
    ∀ s, s.length < fuel →
      (∃ vs, parseParams (runManyF fuel s).1 = .ok vs) ∨
      ∃ t, t ∈ (runManyF fuel s).2.1 ∧
        parseParams (runManyF fuel s).1 = .error (.badFloat t) := by
  induction fuel with
  | zero => intro s h; omega
  | succ n ih =>
    intro s hs
    cases hnt : numRE s with
    | none =>
      rw [runManyF_none n hnt]
      exact Or.inl ⟨[], parseParamsF_nil _⟩
    | some p =>
      obtain ⟨g, t, r⟩ := p
      rw [runManyF_cons n hnt]
      have hlen := numRE_length hnt
      have hg := numRE_consumes hnt
      have hcond : (runManyF n r).1 = [] ∨ (runManyF n r).1.head? = r.head? := by
        have h9 : runManyF n r = runMany r :=
          runManyF_irrel n r (r.length + 1) (by omega) (by omega)
        rw [h9]
        exact runMany_head r
      have hrep : numRE (g ++ (runManyF n r).1) = some (g, t, (runManyF n r).1) :=
        numRE_replay hnt _ hcond
      have hne : g ++ (runManyF n r).1 ≠ [] := by
        intro h0
        exact hg (List.append_eq_nil.mp h0).1
      have hpos : 0 < g.length := List.length_pos.mpr hg
      have hswitch := parseParamsF_irrel (g ++ (runManyF n r).1).length
        (runManyF n r).1 ((runManyF n r).1.length + 1)
        (by rw [List.length_append]; omega) (by omega)
      cases hat : atof t with
      | none =>
        right
        refine ⟨t, by simp, ?_⟩
        unfold parseParams
        exact parseParamsF_bad _ hne hrep hat
      | some v =>
        rcases ih r (by omega) with ⟨vs, hok⟩ | ⟨t2, ht2, herr⟩
        · left
          refine ⟨v :: vs, ?_⟩
          unfold parseParams
          rw [parseParamsF_cons _ hne hrep hat, hswitch]
          unfold parseParams at hok
          rw [hok]
        · right
          refine ⟨t2, by simp [ht2], ?_⟩
          unfold parseParams
          rw [parseParamsF_cons _ hne hrep hat, hswitch]
          unfold parseParams at herr
          rw [herr]

theorem runMany_parseParams {s con : List Char} {ts : List (List Char)}
    {rest : List Char} (h : runMany s = (con, ts, rest))
    (hfit : ∀ t ∈ ts, (atof t).isSome = true) :
    parseParams con = .ok (ts.map atofVal) := by
  have h9 := runMany_parseParamsF (s.length + 1) s (by omega)
  unfold runMany at h
  rw [h] at h9
  exact h9 hfit

theorem runMany_parseParams_err {s con : List Char} {ts : List (List Char)}
    {rest : List Char} (h : runMany s = (con, ts, rest)) :
    (∃ vs, parseParams con = .ok vs) ∨
    ∃ t, t ∈ ts ∧ parseParams con = .error (.badFloat t) := by
  have h9 := runMany_parseParamsF_err (s.length + 1) s (by omega)
  unfold runMany at h
  rw [h] at h9
  exact h9

theorem cmdRE_inv {d : List Char} {c : Char} {run rest : List Char}
    (h : cmdRE d = some (c, run, rest)) :
    ∃ s ts, d = c :: s ∧ cmdLetter c = true ∧ runMany s = (run, ts, rest) ∧ ts ≠ [] := by
  cases d with
  | nil => exact absurd h (by simp [cmdRE])
  | cons c0 s =>
    simp only [cmdRE] at h
    by_cases hc : cmdLetter c0 = true
    · rw [if_pos hc] at h
      rcases hrm : runMany s with ⟨con, ts, rst⟩
      rw [hrm] at h
      cases ts with
      | nil => simp at h
      | cons t ts2 =>
        simp only [Option.some.injEq, Prod.mk.injEq] at h
        obtain ⟨hc0, hcon, hrst⟩ := h
        subst hc0
        subst hcon
        subst hrst
        exact ⟨s, t :: ts2, rfl, hc, hrm, by simp⟩
    · rw [if_neg hc] at h
      exact absurd h (by simp)

theorem cmdRE_length {d : List Char} {c : Char} {run rest : List Char}
    (h : cmdRE d = some (c, run, rest)) : rest.length < d.length := by
  obtain ⟨s, ts, hd, _, hrm, _⟩ := cmdRE_inv h
  have hsound : s = run ++ rest := by
    have h9 := runMany_sound s
    rw [hrm] at h9
    exact h9
  subst hd
  simp only [List.length_cons]
  have : rest.length ≤ s.length := by
    rw [hsound, List.length_append]
    omega
  omega

theorem cmdRE_build {c : Char} {run t : List Char} {ts : List (List Char)}
    (hc : cmdLetter c = true) (hrm : runMany run = (run, t :: ts, [])) :
    cmdRE (c :: run) = some (c, run, []) := by
  simp only [cmdRE]
  rw [if_pos hc, hrm]

theorem closeRE_inv {d : List Char} {c : Char} {r : List Char}
    (h : closeRE d = some (c, r)) :
    (c = 'z' ∨ c = 'Z') ∧ d = c :: d.tail ∧ r = d.tail.dropWhile isSpace := by
  cases d with
  | nil => exact absurd h (by simp [closeRE])
  | cons c0 tl =>
    simp only [closeRE] at h
    by_cases hz : (c0 = 'z' || c0 = 'Z') = true
    · rw [if_pos hz] at h
      simp only [Option.some.injEq, Prod.mk.injEq] at h
      obtain ⟨h1, h2⟩ := h
      subst h1
      refine ⟨?_, rfl, h2.symm⟩
      simpa using hz
    · rw [if_neg hz] at h
      exact absurd h (by simp)

theorem closeRE_length {d : List Char} {c : Char} {r : List Char}
    (h : closeRE d = some (c, r)) : r.length < d.length := by
  obtain ⟨_, hd, hr⟩ := closeRE_inv h
  have hle := length_dropWhile_le (p := isSpace) d.tail
  conv_rhs => rw [hd]
  rw [hr]
  simp only [List.length_cons]
  omega

theorem closeRE_none_of_not_z {c : Char} (tl : List Char)
    (h1 : c ≠ 'z') (h2 : c ≠ 'Z') : closeRE (c :: tl) = none := by
  simp only [closeRE]
  rw [if_neg]
  simp only [Bool.or_eq_true, decide_eq_true_eq]
  rintro (h | h)
  · exact h1 h
  · exact h2 h

theorem parseLoopF_nil (f : Nat) : parseLoopF f [] = .ok ([], 0) := by
  cases f with
  | zero => rfl
  | succ n =>
    simp only [parseLoopF]
    rw [if_pos trivial]

theorem parseLoopF_close {d : List Char} {zc : Char} {rest : List Char} (f : Nat)
    (hne : d ≠ []) (hcl : closeRE d = some (zc, rest)) :
    parseLoopF (f + 1) d = match parseLoopF f rest with
      | Except.ok (steps, n) => Except.ok (PathStep.mk zc [] :: steps, n + 1)
      | Except.error e => Except.error e := by
  simp only [parseLoopF]
  rw [if_neg hne, hcl]

theorem parseLoopF_cmd {d : List Char} {c : Char} {run rest : List Char}
    {ps : List ℚ} (f : Nat) (hne : d ≠ []) (hcl : closeRE d = none)
    (hcm : cmdRE d = some (c, run, rest)) (hpp : parseParams run = .ok ps) :
    parseLoopF (f + 1) d = match parseLoopF f rest with
      | Except.ok (steps, n) => Except.ok (PathStep.mk c ps :: steps, n)
      | Except.error e => Except.error e := by
  simp only [parseLoopF]
  rw [if_neg hne, hcl, hcm]
  show (match parseParams run with
    | Except.ok ps => match parseLoopF f rest with
      | Except.ok (steps, n) => Except.ok (PathStep.mk c ps :: steps, n)
      | Except.error e => Except.error e
    | Except.error e => Except.error e) = _
  rw [hpp]

theorem parseLoopF_cmd_bad {d : List Char} {c : Char} {run rest : List Char}
    {e0 : Fatalf} (f : Nat) (hne : d ≠ []) (hcl : closeRE d = none)
    (hcm : cmdRE d = some (c, run, rest)) (hpp : parseParams run = .error e0) :
    parseLoopF (f + 1) d = .error e0 := by
  simp only [parseLoopF]
  rw [if_neg hne, hcl, hcm]
  show (match parseParams run with
    | Except.ok ps => match parseLoopF f rest with
      | Except.ok (steps, n) => Except.ok (PathStep.mk c ps :: steps, n)
      | Except.error e => Except.error e
    | Except.error e => Except.error e) = _
  rw [hpp]

theorem parseLoopF_err {d : List Char} (f : Nat) (hne : d ≠ [])
    (hcl : closeRE d = none) (hcm : cmdRE d = none) :
    parseLoopF (f + 1) d = .error (.unknownCommand d) := by
  simp only [parseLoopF]
  rw [if_neg hne, hcl, hcm]

theorem parseLoopF_irrel (f1 : Nat) :
    ∀ (d : List Char) (f2 : Nat), d.length < f1 → d.length < f2 →
      parseLoopF f1 d = parseLoopF f2 d := by
  induction f1 with
  | zero => intro d f2 h1 h2; omega
  | succ n ih =>
    intro d f2 h1 h2
    cases f2 with
    | zero => omega
    | succ m =>
      by_cases hd : d = []
      · subst hd
        rw [parseLoopF_nil, parseLoopF_nil]
      · cases hcl : closeRE d with
        | some p =>
          obtain ⟨zc, rest⟩ := p
          have hlen := closeRE_length hcl
          rw [parseLoopF_close n hd hcl, parseLoopF_close m hd hcl,
            ih rest m (by omega) (by omega)]
        | none =>
          cases hcm : cmdRE d with
          | none => rw [parseLoopF_err n hd hcl hcm, parseLoopF_err m hd hcl hcm]
          | some p =>
            obtain ⟨c, run, rest⟩ := p
            have hlen := cmdRE_length hcm
            cases hpp : parseParams run with
            | ok ps =>
              rw [parseLoopF_cmd n hd hcl hcm hpp, parseLoopF_cmd m hd hcl hcm hpp,
                ih rest m (by omega) (by omega)]
            | error e0 =>
              rw [parseLoopF_cmd_bad n hd hcl hcm hpp,
                parseLoopF_cmd_bad m hd hcl hcm hpp]

theorem parseLoop_nil : parseLoop [] = .ok ([], 0) := parseLoopF_nil _

theorem parseLoop_close {d : List Char} {zc : Char} {rest : List Char}
    (hne : d ≠ []) (hcl : closeRE d = some (zc, rest)) :
    parseLoop d = match parseLoop rest with
      | Except.ok (steps, n) => Except.ok (PathStep.mk zc [] :: steps, n + 1)
      | Except.error e => Except.error e := by
  have hlen := closeRE_length hcl
  unfold parseLoop
  rw [parseLoopF_close _ hne hcl,
    parseLoopF_irrel d.length rest (rest.length + 1) (by omega) (by omega)]

theorem parseLoop_cmd {d : List Char} {c : Char} {run rest : List Char}
    {ps : List ℚ} (hne : d ≠ []) (hcl : closeRE d = none)
    (hcm : cmdRE d = some (c, run, rest)) (hpp : parseParams run = .ok ps) :
    parseLoop d = match parseLoop rest with
      | Except.ok (steps, n) => Except.ok (PathStep.mk c ps :: steps, n)
      | Except.error e => Except.error e := by
  have hlen := cmdRE_length hcm
  unfold parseLoop
  rw [parseLoopF_cmd _ hne hcl hcm hpp,
    parseLoopF_irrel d.length rest (rest.length + 1) (by omega) (by omega)]

theorem parseLoop_cmd_bad {d : List Char} {c : Char} {run rest : List Char}
    {e0 : Fatalf} (hne : d ≠ []) (hcl : closeRE d = none)
    (hcm : cmdRE d = some (c, run, rest)) (hpp : parseParams run = .error e0) :
    parseLoop d = .error e0 := parseLoopF_cmd_bad _ hne hcl hcm hpp

theorem parseLoop_err {d : List Char} (hne : d ≠ [])
    (hcl : closeRE d = none) (hcm : cmdRE d = none) :
    parseLoop d = .error (.unknownCommand d) := parseLoopF_err _ hne hcl hcm

theorem numRE_nil : numRE [] = none := rfl

theorem numRE_build_nil {t : List Char} (ht : IsTok t = true) :
    numRE t = some (t, t, []) := by
  have hnt : numTok t = some (t, []) := by
    have h9 := numTok_replay ht (X := []) (by intro c hc; simp at hc)
    simpa using h9
  have hstop := tdw_stop (p := isSpace) t (isTok_head_not_space ht)
  simp only [numRE]
  rw [hstop.1, hstop.2, hnt]
  rfl

theorem numRE_build_sep {t : List Char} {c : Char} (r : List Char)
    (ht : IsTok t = true) (hc : sepChar c = true) :
    numRE (t ++ (c :: r)) = some (t ++ [c], t, r) := by
  have hbnd : Boundary t (c :: r).head? := by
    intro c2 hc2
    simp only [List.head?_cons, Option.some.injEq] at hc2
    subst hc2
    exact ⟨(sepChar_not_digit hc).1, Or.inr (sepChar_not_digit hc).2⟩
  have hnt : numTok (t ++ (c :: r)) = some (t, c :: r) := numTok_replay ht hbnd
  have hstop := tdw_stop (p := isSpace) (t ++ (c :: r)) (fun c3 hc3 => by
    rw [head?_append_left (c :: r) (isTok_ne_nil ht)] at hc3
    exact isTok_head_not_space ht c3 hc3)
  simp only [numRE]
  rw [hstop.1, hstop.2, hnt]
  show (if sepChar c = true then some ([] ++ t ++ [c], t, r)
    else some ([] ++ t, t, c :: r)) = some (t ++ [c], t, r)
  rw [if_pos hc]
  simp

theorem runMany_toks_head {s con rest : List Char} {t0 : List Char}
    {ts : List (List Char)} (h : runMany s = (con, t0 :: ts, rest)) :
    ∃ g1 t1 r1, numRE s = some (g1, t1, r1) := by
  cases hnt : numRE s with
  | none =>
    rw [runMany_none hnt] at h
    simp at h
  | some p =>
    obtain ⟨g1, t1, r1⟩ := p
    exact ⟨g1, t1, r1, rfl⟩

theorem runMany_ws_shift {ws rest : List Char} (hws : IsWS ws = true)
    {g0 t0 r0 : List Char} (h : numRE rest = some (g0, t0, r0)) :
    runMany (ws ++ rest) =
      (ws ++ (runMany rest).1, (runMany rest).2.1, (runMany rest).2.2) := by
  have hshift := numRE_ws_shift rest hws
  rw [h] at hshift
  rw [runMany_cons hshift, runMany_cons h]
  simp

theorem sepRun_dest {sep : List Char} (hs : SepRun sep) (hne : sep ≠ []) :
    ∃ c ws, sep = c :: ws ∧ sepChar c = true ∧ IsWS ws = true := by
  rcases hs with ⟨c, ws, hsep, hc, hws⟩ | hws
  · exact ⟨c, ws, hsep, hc, hws⟩
  · cases sep with
    | nil => exact absurd rfl hne
    | cons c ws =>
      have hc : isSpace c = true := by
        have := List.all_eq_true.mp hws c (by simp)
        exact this
      have hws2 : IsWS ws = true := by
        refine List.all_eq_true.mpr ?_
        intro x hx
        exact List.all_eq_true.mp hws x (by simp [hx])
      refine ⟨c, ws, rfl, ?_, hws2⟩
      simp only [sepChar, Bool.or_eq_true]
      right
      exact hc

theorem Run_toks_ne_nil {run : List Char} {toks : List (List Char)}
    (h : Run run toks) : toks ≠ [] := by
  cases h with
  | last t ht => simp
  | cons t sep rest ts ht hsep hne hrest => simp

theorem Run_runMany {run : List Char} {toks : List (List Char)}
    (h : Run run toks) : runMany run = (run, toks, []) := by
  induction h with
  | last t ht =>
    rw [runMany_cons (numRE_build_nil ht)]
    have hnil : runMany [] = ([], [], []) := runMany_none rfl
    rw [hnil]
    simp
  | cons t sep rest ts ht hsep hne hrest ih =>
    obtain ⟨c, ws, hsepeq, hc, hws⟩ := sepRun_dest hsep hne
    subst hsepeq
    have harr : t ++ ((c :: ws) ++ rest) = t ++ (c :: (ws ++ rest)) := by simp
    rw [harr]
    obtain ⟨t2, ts2, hts⟩ : ∃ t2 ts2, ts = t2 :: ts2 := by
      cases ts with
      | nil => exact absurd rfl (Run_toks_ne_nil hrest)
      | cons a l => exact ⟨a, l, rfl⟩
    obtain ⟨g1, t1, r1, hnum⟩ := runMany_toks_head
      (show runMany rest = (rest, t2 :: ts2, []) by rw [ih, hts])
    have hshift := runMany_ws_shift hws hnum
    rw [ih] at hshift
    rw [runMany_cons (numRE_build_sep (ws ++ rest) ht hc), hshift]
    simp

theorem CloseRun_head {d : List Char} {ls : List Char} (h : CloseRun d ls) :
    d = [] ∨ ∃ z tl, d = z :: tl ∧ (z = 'z' ∨ z = 'Z') := by
  cases h with
  | nil => exact Or.inl rfl
  | cons z ws rest ls2 hz hws hrest => exact Or.inr ⟨z, ws ++ rest, rfl, hz⟩

theorem CloseRun_parseLoop {d ls : List Char} (h : CloseRun d ls) :
    parseLoop d = .ok (ls.map fun z => PathStep.mk z [], ls.length) := by
  induction h with
  | nil => exact parseLoop_nil
  | cons z ws rest ls2 hz hws hrest ih =>
    have hdrop : (ws ++ rest).dropWhile isSpace = rest := by
      have happ := tdw_append_all ws rest (List.all_eq_true.mp hws)
      rw [happ.2]
      rcases CloseRun_head hrest with h0 | ⟨z2, tl, h0, hz2⟩
      · rw [h0]; rfl
      · rw [h0, List.dropWhile_cons, if_neg]
        rcases hz2 with hz2 | hz2 <;> subst hz2 <;> decide
    have hcl : closeRE (z :: (ws ++ rest)) = some (z, rest) := by
      simp only [closeRE]
      rw [if_pos (by rcases hz with hz | hz <;> subst hz <;> simp), hdrop]
    have hne : z :: (ws ++ rest) ≠ [] := by simp
    rw [parseLoop_close hne hcl, ih]
    rfl

theorem core_fatal (g : Glyph) {d : List Char} (logs : List Diag) {e : Fatalf}
    (h : parseLoop d = .error e) : parsePathCore g d logs = .fatal logs e := by
  simp only [parsePathCore]
  rw [h]

theorem core_ok_nowarn (g : Glyph) {d : List Char} (logs : List Diag)
    {steps : List PathStep} {n : Nat} (h : parseLoop d = .ok (steps, n))
    (hcond : ¬(1 < n ∧ lpMismatch g.GerberLP n = true)) :
    parsePathCore g d logs =
      .ok { g with PathSteps := g.PathSteps ++ steps } logs := by
  simp only [parsePathCore]
  rw [h]
  show (if 1 < n ∧ lpMismatch g.GerberLP n = true then
      match g.Unicode with
      | none => Outcome.nilPanic logs
      | some u => Outcome.ok { g with PathSteps := g.PathSteps ++ steps }
          (logs ++ [warnDiag u g.GerberLP n])
    else Outcome.ok { g with PathSteps := g.PathSteps ++ steps } logs) = _
  rw [if_neg hcond]

theorem core_ok_warn (g : Glyph) {d : List Char} (logs : List Diag)
    {steps : List PathStep} {n : Nat} {u : List Char}
    (h : parseLoop d = .ok (steps, n))
    (hcond : 1 < n ∧ lpMismatch g.GerberLP n = true) (hu : g.Unicode = some u) :
    parsePathCore g d logs = .ok { g with PathSteps := g.PathSteps ++ steps }
      (logs ++ [warnDiag u g.GerberLP n]) := by
  simp only [parsePathCore]
  rw [h]
  show (if 1 < n ∧ lpMismatch g.GerberLP n = true then
      match g.Unicode with
      | none => Outcome.nilPanic logs
      | some u => Outcome.ok { g with PathSteps := g.PathSteps ++ steps }
          (logs ++ [warnDiag u g.GerberLP n])
    else Outcome.ok { g with PathSteps := g.PathSteps ++ steps } logs) = _
  rw [if_pos hcond, hu]

theorem core_ok_panic (g : Glyph) {d : List Char} (logs : List Diag)
    {steps : List PathStep} {n : Nat} (h : parseLoop d = .ok (steps, n))
    (hcond : 1 < n ∧ lpMismatch g.GerberLP n = true) (hu : g.Unicode = none) :
    parsePathCore g d logs = .nilPanic logs := by
  simp only [parsePathCore]
  rw [h]
  show (if 1 < n ∧ lpMismatch g.GerberLP n = true then
      match g.Unicode with
      | none => Outcome.nilPanic logs
      | some u => Outcome.ok { g with PathSteps := g.PathSteps ++ steps }
          (logs ++ [warnDiag u g.GerberLP n])
    else Outcome.ok { g with PathSteps := g.PathSteps ++ steps } logs) = _
  rw [if_pos hcond, hu]

theorem ParsePath_noD {g : Glyph} (h : g.D = none) : ParsePath g = .ok g [] := by
  simp only [ParsePath]
  rw [h]

theorem ParsePath_noOrig {g : Glyph} {d : List Char} (hD : g.D = some d)
    (hO : g.DOrig = none) : ParsePath g = parsePathCore g d [] := by
  simp only [ParsePath]
  rw [hD, hO]

theorem ParsePath_emptyOrig {g : Glyph} {d : List Char} (hD : g.D = some d)
    (hO : g.DOrig = some []) : ParsePath g = parsePathCore g d [] := by
  simp only [ParsePath]
  rw [hD, hO]
  show (if ([] : List Char) = [] then parsePathCore g d []
    else match g.Unicode with
      | none => Outcome.nilPanic []
      | some u => parsePathCore g [] [Diag.usingDOrig u]) = _
  rw [if_pos rfl]

theorem ParsePath_orig {g : Glyph} {d s u : List Char}
    (hD : g.D = some d) (hO : g.DOrig = some s) (hne : s ≠ [])
    (hu : g.Unicode = some u) :
    ParsePath g = parsePathCore g s [.usingDOrig u] := by
  simp only [ParsePath]
  rw [hD, hO]
  show (if s = [] then parsePathCore g d []
    else match g.Unicode with
      | none => Outcome.nilPanic []
      | some u => parsePathCore g s [Diag.usingDOrig u]) = _
  rw [if_neg hne, hu]

theorem ParsePath_orig_panic {g : Glyph} {d s : List Char}
    (hD : g.D = some d) (hO : g.DOrig = some s) (hne : s ≠ [])
    (hu : g.Unicode = none) : ParsePath g = .nilPanic [] := by
  simp only [ParsePath]
  rw [hD, hO]
  show (if s = [] then parsePathCore g d []
    else match g.Unicode with
      | none => Outcome.nilPanic []
      | some u => parsePathCore g s [Diag.usingDOrig u]) = _
  rw [if_neg hne, hu]

theorem effective_parsePath {g : Glyph} {u d : List Char} {b : Bool}
    (hu : g.Unicode = some u) (heff : effective g = some (d, b)) :
    ParsePath g = parsePathCore g d (if b then [Diag.usingDOrig u] else []) := by
  unfold effective at heff
  cases hD : g.D with
  | none => rw [hD] at heff; exact absurd heff (by simp)
  | some d0 =>
    rw [hD] at heff
    cases hO : g.DOrig with
    | none =>
      rw [hO] at heff
      simp only [Option.some.injEq, Prod.mk.injEq] at heff
      obtain ⟨hd0, hb⟩ := heff
      subst hd0
      rw [← hb, ParsePath_noOrig hD hO]
      rfl
    | some s0 =>
      rw [hO] at heff
      have heff2 : (if s0 = [] then some (d0, false) else some (s0, true)) =
          some (d, b) := heff
      by_cases hse : s0 = []
      · rw [if_pos hse] at heff2
        simp only [Option.some.injEq, Prod.mk.injEq] at heff2
        obtain ⟨hd0, hb⟩ := heff2
        subst hd0
        subst hse
        rw [← hb, ParsePath_emptyOrig hD hO]
        rfl
      · rw [if_neg hse] at heff2
        simp only [Option.some.injEq, Prod.mk.injEq] at heff2
        obtain ⟨hd0, hb⟩ := heff2
        subst hd0
        rw [← hb, ParsePath_orig hD hO hse hu]
        rfl

theorem core_proj (g1 g2 : Glyph) (d : List Char) (l1 l2 : List Diag)
    (hps : g1.PathSteps = g2.PathSteps) (hlp : g1.GerberLP = g2.GerberLP)
    (hu : g1.Unicode = g2.Unicode) :
    ∃ X, (parsePathCore g1 d l1).logs = l1 ++ X ∧
      (parsePathCore g2 d l2).logs = l2 ++ X ∧
      (parsePathCore g1 d l1).stepsOf = (parsePathCore g2 d l2).stepsOf ∧
      (parsePathCore g1 d l1).errOf = (parsePathCore g2 d l2).errOf ∧
      (parsePathCore g1 d l1).isPanic = (parsePathCore g2 d l2).isPanic := by
  cases hpl : parseLoop d with
  | error e =>
    rw [core_fatal g1 l1 hpl, core_fatal g2 l2 hpl]
    exact ⟨[], by simp [Outcome.logs], by simp [Outcome.logs], rfl, rfl, rfl⟩
  | ok p =>
    obtain ⟨steps, n⟩ := p
    by_cases hcond : 1 < n ∧ lpMismatch g1.GerberLP n = true
    · have hcond2 : 1 < n ∧ lpMismatch g2.GerberLP n = true := by
        rw [← hlp]
        exact hcond
      cases hu1 : g1.Unicode with
      | none =>
        have hu2 : g2.Unicode = none := by rw [← hu]; exact hu1
        rw [core_ok_panic g1 l1 hpl hcond hu1, core_ok_panic g2 l2 hpl hcond2 hu2]
        exact ⟨[], by simp [Outcome.logs], by simp [Outcome.logs], rfl, rfl, rfl⟩
      | some u =>
        have hu2 : g2.Unicode = some u := by rw [← hu]; exact hu1
        rw [core_ok_warn g1 l1 hpl hcond hu1, core_ok_warn g2 l2 hpl hcond2 hu2]
        refine ⟨[warnDiag u g1.GerberLP n], rfl, by rw [hlp]; rfl, ?_, rfl, rfl⟩
        simp only [Outcome.stepsOf, Option.some.injEq]
        rw [hps]
    · have hcond2 : ¬(1 < n ∧ lpMismatch g2.GerberLP n = true) := by
        rw [← hlp]
        exact hcond
      rw [core_ok_nowarn g1 l1 hpl hcond, core_ok_nowarn g2 l2 hpl hcond2]
      refine ⟨[], by simp [Outcome.logs], by simp [Outcome.logs], ?_, rfl, rfl⟩
      simp only [Outcome.stepsOf, Option.some.injEq]
      rw [hps]

theorem core_ok_shape {g : Glyph} {d : List Char} {logs : List Diag}
    {g2 : Glyph} {l2 : List Diag} (h : parsePathCore g d logs = .ok g2 l2) :
    ∃ steps, g2 = { g with PathSteps := g.PathSteps ++ steps } := by
  cases hpl : parseLoop d with
  | error e =>
    rw [core_fatal g logs hpl] at h
    exact absurd h (by simp)
  | ok p =>
    obtain ⟨steps, n⟩ := p
    by_cases hcond : 1 < n ∧ lpMismatch g.GerberLP n = true
    · cases hu : g.Unicode with
      | none =>
        rw [core_ok_panic g logs hpl hcond hu] at h
        exact absurd h (by simp)
      | some u =>
        rw [core_ok_warn g logs hpl hcond hu] at h
        simp only [Outcome.ok.injEq] at h
        rw [← hu]
        exact ⟨steps, h.1.symm⟩
    · rw [core_ok_nowarn g logs hpl hcond] at h
      simp only [Outcome.ok.injEq] at h
      exact ⟨steps, h.1.symm⟩

/-- C1 counterexample: an in-family input, the letter m followed by one
valid signed decimal token of 310 digits, is matched by cmdRE but its
value exceeds the float64 range, so strconv.ParseFloat reports ErrRange
and atof aborts fatally instead of producing the claimed single step. -/
theorem c1_overflow_counterexample :
    ParsePath (Glyph.mk 0 none (some ('m' :: '1' :: List.replicate 309 '0'))
        none none []) =
      .fatal [] (.badFloat ('1' :: List.replicate 309 '0')) := by decide

/-- C1 (amended): for every input string consisting of a command letter
from the set m, l, h, v, c, s, q, t, a (either case) followed by a
numeric run of valid signed decimal tokens separated per the scanner
grammar, each with value within float64 range so that conversion
succeeds, ParsePath produces exactly one PathStep whose Command is the
letter verbatim (case preserved) and whose Parameters are the tokens'
parsed values in left-to-right order; an out-of-range token instead
aborts fatally in the conversion. -/
theorem c1_single_general_command (g : Glyph) (c : Char) (run : List Char)
    (toks : List (List Char)) (hc : cmdLetter c = true) (hr : Run run toks)
    (hfit : ∀ t ∈ toks, (atof t).isSome = true)
    (hD : g.D = some (c :: run)) (hO : g.DOrig = none) :
    ParsePath g = .ok { g with PathSteps := g.PathSteps ++
      [PathStep.mk c (toks.map atofVal)] } [] := by
  have hrm := Run_runMany hr
  obtain ⟨t2, ts2, hts⟩ : ∃ t2 ts2, toks = t2 :: ts2 := by
    cases toks with
    | nil => exact absurd rfl (Run_toks_ne_nil hr)
    | cons a l => exact ⟨a, l, rfl⟩
  subst hts
  have hcmd : cmdRE (c :: run) = some (c, run, []) := cmdRE_build hc hrm
  have hclose : closeRE (c :: run) = none :=
    closeRE_none_of_not_z run (fun h => cmdLetter_not_close hc (Or.inl h))
      (fun h => cmdLetter_not_close hc (Or.inr h))
  have hpp : parseParams run = .ok ((t2 :: ts2).map atofVal) :=
    runMany_parseParams hrm hfit
  have hne : c :: run ≠ [] := by simp
  have hloop : parseLoop (c :: run) =
      .ok ([PathStep.mk c ((t2 :: ts2).map atofVal)], 0) := by
    rw [parseLoop_cmd hne hclose hcmd hpp, parseLoop_nil]
  rw [ParsePath_noOrig hD hO]
  exact core_ok_nowarn g [] hloop (by intro hx; obtain ⟨h1, _⟩ := hx; omega)

/-- Witness for C1 at the input m1,2. -/
theorem c1_single_general_command_witness :
    ParsePath (Glyph.mk 0 none (some ['m', '1', ',', '2']) none none []) =
      .ok (Glyph.mk 0 none (some ['m', '1', ',', '2']) none none
        [PathStep.mk 'm' [1, 2]]) [] := by
  have h := c1_single_general_command
    (Glyph.mk 0 none (some ['m', '1', ',', '2']) none none []) 'm'
    ['1', ',', '2'] [['1'], ['2']] (by decide)
    (Run.cons ['1'] [','] ['2'] [['2']] (by decide)
      (Or.inl ⟨',', [], rfl, by decide, by decide⟩) (by decide)
      (Run.last ['2'] (by decide))) (by decide) rfl rfl
  rw [h]
  decide

/-- C2: whenever the remaining unconsumed text matches neither the close
pattern nor the general-command pattern, the scanning loop fails fatally
carrying that remainder verbatim and emits no step for it, and ParsePath
on such an effective string aborts the same way. -/
theorem c2_unknown_command_fatal (g : Glyph) (d : List Char) (hne : d ≠ [])
    (hclose : closeRE d = none) (hcmd : cmdRE d = none)
    (hD : g.D = some d) (hO : g.DOrig = none) :
    parseLoop d = .error (.unknownCommand d) ∧
    ParsePath g = .fatal [] (.unknownCommand d) := by
  have h1 := parseLoop_err hne hclose hcmd
  exact ⟨h1, by rw [ParsePath_noOrig hD hO, core_fatal g [] h1]⟩

/-- Witness for C2 at the inputs Q and X10,10. -/
theorem c2_unknown_command_fatal_witness :
    (parseLoop ['Q'] = .error (.unknownCommand ['Q']) ∧
      ParsePath (Glyph.mk 0 none (some ['Q']) none none []) =
        .fatal [] (.unknownCommand ['Q'])) ∧
    (parseLoop ['X', '1', '0', ',', '1', '0'] =
        .error (.unknownCommand ['X', '1', '0', ',', '1', '0']) ∧
      ParsePath (Glyph.mk 0 none (some ['X', '1', '0', ',', '1', '0']) none none []) =
        .fatal [] (.unknownCommand ['X', '1', '0', ',', '1', '0'])) :=
  ⟨c2_unknown_command_fatal _ ['Q'] (by decide) (by decide) (by decide) rfl rfl,
   c2_unknown_command_fatal _ ['X', '1', '0', ',', '1', '0'] (by decide) (by decide)
     (by decide) rfl rfl⟩

/-- C6 counterexample: the float-conversion fatal branch is reachable: a
310-digit token is matched by cmdRE, yet its value exceeds the float64
range, so strconv.ParseFloat reports ErrRange and atof aborts fatally
inside parseParams. -/
theorem c6_overflow_counterexample :
    cmdRE ('L' :: '2' :: List.replicate 309 '0') =
      some ('L', '2' :: List.replicate 309 '0', []) ∧
    parseParams ('2' :: List.replicate 309 '0') =
      .error (.badFloat ('2' :: List.replicate 309 '0')) := by decide

/-- C6 (amended): for every numeric-run substring handed to the scanner
by the parser, that is the text after the command letter of a successful
cmdRE match, the run is fully tokenised, so the non-numeric-remainder
fatal branch of parseParams is unreachable and the only reachable fatal
is the float-conversion failure on a matched token whose value is out of
float64 range; when every matched token converts, parseParams consumes
the whole substring and returns the values in order. -/
theorem c6_params_fatal_only_range (d : List Char) (c : Char)
    (run rest : List Char) (h : cmdRE d = some (c, run, rest)) :
    ∃ ts : List (List Char),
      ((∀ t ∈ ts, (atof t).isSome = true) →
        parseParams run = .ok (ts.map atofVal)) ∧
      ((∃ vs, parseParams run = .ok vs) ∨
        ∃ t, t ∈ ts ∧ parseParams run = .error (.badFloat t)) := by
  obtain ⟨s, ts, hd, hc, hrm, hts⟩ := cmdRE_inv h
  exact ⟨ts, fun hfit => runMany_parseParams hrm hfit, runMany_parseParams_err hrm⟩

/-- Witness for C6 at the input m1 2. -/
theorem c6_params_fatal_only_range_witness :
    ∃ vs, parseParams ['1', ' ', '2'] = .ok vs := by
  obtain ⟨ts, hcomp, hshape⟩ := c6_params_fatal_only_range ['m', '1', ' ', '2'] 'm'
    ['1', ' ', '2'] [] (by decide)
  rcases hshape with hok | ⟨t, ht, herr⟩
  · exact hok
  · rw [show parseParams ['1', ' ', '2'] = .ok [1, 2] by decide] at herr
    exact absurd herr (by simp)

/-- C7: an input consisting solely of close letters, each optionally
followed by whitespace, parses into exactly that many steps carrying the
matched letters with empty parameter lists, and when the close count is
at most one ParsePath succeeds with no warning whatever GerberLP and
Unicode hold. -/
theorem c7_close_runs (g : Glyph) (d ls : List Char)
    (hcr : CloseRun d ls) (hD : g.D = some d) (hO : g.DOrig = none) :
    parseLoop d = .ok (ls.map (fun z => PathStep.mk z []), ls.length) ∧
    (ls.length ≤ 1 →
      ParsePath g =
        .ok { g with PathSteps := g.PathSteps ++ ls.map (fun z => PathStep.mk z []) } []) := by
  have h1 := CloseRun_parseLoop hcr
  refine ⟨h1, fun hle => ?_⟩
  rw [ParsePath_noOrig hD hO]
  exact core_ok_nowarn g [] h1 (by intro hx; obtain ⟨h2, _⟩ := hx; omega)

/-- Witness for C7 at the input z followed by a space. -/
theorem c7_close_runs_witness :
    parseLoop ['z', ' '] = .ok ([PathStep.mk 'z' []], 1) ∧
    ParsePath (Glyph.mk 0 none (some ['z', ' ']) none none []) =
      .ok (Glyph.mk 0 none (some ['z', ' ']) none none [PathStep.mk 'z' []]) [] := by
  have h := c7_close_runs (Glyph.mk 0 none (some ['z', ' ']) none none [])
    ['z', ' '] ['z']
    (CloseRun.cons 'z' [' '] [] [] (Or.inl rfl) (by decide) CloseRun.nil) rfl rfl
  exact ⟨h.1, h.2 (by decide)⟩

/-- C9: every successful match of the three scanners consumes at least
one character, so the remaining text strictly shrinks; consequently any
fuel beyond the input length leaves the loop results unchanged, which is
how the loops of ParsePath and parseParams reach their terminal state on
all inputs. -/
theorem c9_matchers_consume :
    (∀ (d : List Char) (c : Char) (r : List Char),
        closeRE d = some (c, r) → r.length < d.length) ∧
    (∀ (d : List Char) (c : Char) (run rest : List Char),
        cmdRE d = some (c, run, rest) → rest.length < d.length) ∧
    (∀ (s g t r : List Char), numRE s = some (g, t, r) → r.length < s.length) ∧
    (∀ (d : List Char) (f : Nat), d.length < f → parseLoopF f d = parseLoop d) ∧
    (∀ (d : List Char) (f : Nat), d.length < f → parseParamsF f d = parseParams d) :=
  ⟨fun _ _ _ h => closeRE_length h,
   fun _ _ _ _ h => cmdRE_length h,
   fun _ _ _ _ h => numRE_length h,
   fun d f hf => parseLoopF_irrel f d (d.length + 1) hf (by omega),
   fun d f hf => parseParamsF_irrel f d (d.length + 1) hf (by omega)⟩

/-- Witness for C9 at small concrete matches. -/
theorem c9_matchers_consume_witness :
    (List.length ([] : List Char) < List.length ['z', ' '] ∧
      List.length ([] : List Char) < List.length ['m', '1'] ∧
      List.length ([] : List Char) < List.length ['1']) ∧
    parseLoopF 9 ['z'] = parseLoop ['z'] ∧
    parseParamsF 9 ['1'] = parseParams ['1'] :=
  ⟨⟨c9_matchers_consume.1 ['z', ' '] 'z' [] (by decide),
    c9_matchers_consume.2.1 ['m', '1'] 'm' ['1'] [] (by decide),
    c9_matchers_consume.2.2.1 ['1'] ['1'] ['1'] [] (by decide)⟩,
   c9_matchers_consume.2.2.2.1 ['z'] 9 (by decide),
   c9_matchers_consume.2.2.2.2 ['1'] 9 (by decide)⟩

/-- C10: a completed ParsePath call leaves HorizAdvX, Unicode, D, DOrig
and GerberLP unchanged and only appends to PathSteps. -/
theorem c10_frame (g g2 : Glyph) (logs : List Diag)
    (h : ParsePath g = .ok g2 logs) :
    g2.HorizAdvX = g.HorizAdvX ∧ g2.Unicode = g.Unicode ∧ g2.D = g.D ∧
    g2.DOrig = g.DOrig ∧ g2.GerberLP = g.GerberLP ∧
    ∃ new, g2.PathSteps = g.PathSteps ++ new := by
  cases hD : g.D with
  | none =>
    rw [ParsePath_noD hD] at h
    simp only [Outcome.ok.injEq] at h
    rw [← h.1]
    exact ⟨rfl, rfl, hD, rfl, rfl, [], by simp⟩
  | some d =>
    cases hO : g.DOrig with
    | none =>
      rw [ParsePath_noOrig hD hO] at h
      obtain ⟨steps, hg2⟩ := core_ok_shape h
      subst hg2
      exact ⟨rfl, rfl, hD, hO, rfl, steps, rfl⟩
    | some s =>
      by_cases hse : s = []
      · subst hse
        rw [ParsePath_emptyOrig hD hO] at h
        obtain ⟨steps, hg2⟩ := core_ok_shape h
        subst hg2
        exact ⟨rfl, rfl, hD, hO, rfl, steps, rfl⟩
      · cases hu : g.Unicode with
        | none =>
          rw [ParsePath_orig_panic hD hO hse hu] at h
          exact absurd h (by simp)
        | some u =>
          rw [ParsePath_orig hD hO hse hu] at h
          obtain ⟨steps, hg2⟩ := core_ok_shape h
          subst hg2
          exact ⟨rfl, hu, hD, hO, rfl, steps, rfl⟩

/-- Witness for C10 at a small glyph. -/
theorem c10_frame_witness :
    (Glyph.mk 7 (some ['u']) (some ['m', '1']) none (some ['x'])
        [PathStep.mk 'z' []]).HorizAdvX = 7 ∧
    ∃ new, (Glyph.mk 7 (some ['u']) (some ['m', '1']) none (some ['x'])
      [PathStep.mk 'z' [], PathStep.mk 'm' [1]]).PathSteps =
        (Glyph.mk 7 (some ['u']) (some ['m', '1']) none (some ['x'])
          [PathStep.mk 'z' []]).PathSteps ++ new := by
  have h := c10_frame
    (Glyph.mk 7 (some ['u']) (some ['m', '1']) none (some ['x'])
      [PathStep.mk 'z' []])
    (Glyph.mk 7 (some ['u']) (some ['m', '1']) none (some ['x'])
      [PathStep.mk 'z' [], PathStep.mk 'm' [1]]) [] (by decide)
  exact ⟨rfl, h.2.2.2.2.2⟩

/-- C3 counterexample: with the unicode attribute absent, a glyph with a
non-empty override is not parsed at all — the substitution notice
dereferences the nil Unicode pointer and panics. -/
theorem c3_override_counterexample :
    ParsePath (Glyph.mk 0 none (some ['m', '1']) (some ['z']) none []) =
      .nilPanic [] := by decide

/-- C3 (amended): for every glyph whose unicode attribute is present and
whose D is present, a supplied non-empty override is parsed in place of
the primary path string for the entire parse, with the substitution
notice logged first; a supplied empty override leaves the primary parsed
and emits no substitution notice. -/
theorem c3_override_precedence (g : Glyph) (u d0 s : List Char)
    (hu : g.Unicode = some u) (hD : g.D = some d0) :
    (g.DOrig = some s → s ≠ [] →
      (ParsePath g).logs = Diag.usingDOrig u ::
        (ParsePath { g with D := some s, DOrig := none }).logs ∧
      (ParsePath g).stepsOf = (ParsePath { g with D := some s, DOrig := none }).stepsOf ∧
      (ParsePath g).errOf = (ParsePath { g with D := some s, DOrig := none }).errOf ∧
      (ParsePath g).isPanic = (ParsePath { g with D := some s, DOrig := none }).isPanic) ∧
    (g.DOrig = some [] →
      (ParsePath g).logs = (ParsePath { g with DOrig := none }).logs ∧
      (ParsePath g).stepsOf = (ParsePath { g with DOrig := none }).stepsOf ∧
      (ParsePath g).errOf = (ParsePath { g with DOrig := none }).errOf ∧
      (ParsePath g).isPanic = (ParsePath { g with DOrig := none }).isPanic) := by
  constructor
  · intro hO hne
    rw [ParsePath_orig hD hO hne hu]
    have h2 : ParsePath { g with D := some s, DOrig := none } =
        parsePathCore { g with D := some s, DOrig := none } s [] :=
      ParsePath_noOrig rfl rfl
    rw [h2]
    obtain ⟨X, hX1, hX2, hX3, hX4, hX5⟩ :=
      core_proj g { g with D := some s, DOrig := none } s [Diag.usingDOrig u] []
        rfl rfl rfl
    refine ⟨?_, hX3, hX4, hX5⟩
    rw [hX1, hX2]
    rfl
  · intro hO
    rw [ParsePath_emptyOrig hD hO]
    have h2 : ParsePath { g with DOrig := none } =
        parsePathCore { g with DOrig := none } d0 [] := ParsePath_noOrig hD rfl
    rw [h2]
    obtain ⟨X, hX1, hX2, hX3, hX4, hX5⟩ :=
      core_proj g { g with DOrig := none } d0 [] [] rfl rfl rfl
    refine ⟨?_, hX3, hX4, hX5⟩
    rw [hX1, hX2]

/-- Witness for C3 on a glyph with unicode u, primary m1 and override z. -/
theorem c3_override_precedence_witness :
    (ParsePath (Glyph.mk 0 (some ['u']) (some ['m', '1']) (some ['z']) none [])).logs =
      Diag.usingDOrig ['u'] ::
        (ParsePath (Glyph.mk 0 (some ['u']) (some ['z']) none none [])).logs ∧
    (ParsePath (Glyph.mk 0 (some ['u']) (some ['m', '1']) (some ['z']) none [])).stepsOf =
      (ParsePath (Glyph.mk 0 (some ['u']) (some ['z']) none none [])).stepsOf ∧
    (ParsePath (Glyph.mk 0 (some ['u']) (some ['m', '1']) (some ['z']) none [])).errOf =
      (ParsePath (Glyph.mk 0 (some ['u']) (some ['z']) none none [])).errOf ∧
    (ParsePath (Glyph.mk 0 (some ['u']) (some ['m', '1']) (some ['z']) none [])).isPanic =
      (ParsePath (Glyph.mk 0 (some ['u']) (some ['z']) none none [])).isPanic :=
  (c3_override_precedence (Glyph.mk 0 (some ['u']) (some ['m', '1']) (some ['z']) none [])
    ['u'] ['m', '1'] ['z'] rfl rfl).1 rfl (by decide)

/-- C4 counterexample: a glyph whose warning condition holds but whose
unicode attribute is absent makes the warning itself panic, so the
operation fails rather than completing with a diagnostic. -/
theorem c4_warning_counterexample :
    ParsePath (Glyph.mk 0 none (some ['z', 'z']) none none []) =
      .nilPanic [] := by decide

/-- C4 (amended): for every glyph whose unicode attribute is present and
whose effective path string (the override when supplied non-empty, else
the primary) scans successfully with close count n, the close-count
warning is emitted exactly once if and only if n exceeds one and
GerberLP is absent or of different byte length, after the substitution
notice when the override was used; in all those cases the returned step
sequence is unchanged and the operation does not fail. -/
theorem c4_warning_condition (g : Glyph) (u d : List Char) (b : Bool)
    (steps : List PathStep) (n : Nat) (hu : g.Unicode = some u)
    (heff : effective g = some (d, b))
    (hloop : parseLoop d = .ok (steps, n)) :
    ParsePath g = .ok { g with PathSteps := g.PathSteps ++ steps }
      ((if b then [Diag.usingDOrig u] else []) ++
        (if 1 < n ∧ lpMismatch g.GerberLP n = true
          then [warnDiag u g.GerberLP n] else [])) := by
  rw [effective_parsePath hu heff]
  by_cases hcond : 1 < n ∧ lpMismatch g.GerberLP n = true
  · rw [if_pos hcond]
    exact core_ok_warn g _ hloop hcond hu
  · rw [if_neg hcond]
    rw [core_ok_nowarn g (if b then [Diag.usingDOrig u] else []) hloop hcond,
      List.append_nil]

/-- Witness for C4: two close commands with no GerberLP warn once; three
close commands with a GerberLP of three ASCII bytes do not warn; a glyph
parsed through a non-empty override gets the notice then the warning. -/
theorem c4_warning_condition_witness :
    ParsePath (Glyph.mk 0 (some ['u']) (some ['z', 'z']) none none []) =
      .ok (Glyph.mk 0 (some ['u']) (some ['z', 'z']) none none
        [PathStep.mk 'z' [], PathStep.mk 'z' []]) [Diag.warnNoLP ['u'] 2] ∧
    ParsePath (Glyph.mk 0 (some ['u']) (some ['z', 'z', 'z']) none
        (some ['d', 'c', 'd']) []) =
      .ok (Glyph.mk 0 (some ['u']) (some ['z', 'z', 'z']) none (some ['d', 'c', 'd'])
        [PathStep.mk 'z' [], PathStep.mk 'z' [], PathStep.mk 'z' []]) [] ∧
    ParsePath (Glyph.mk 0 (some ['u']) (some ['m', '1']) (some ['z', 'z']) none []) =
      .ok (Glyph.mk 0 (some ['u']) (some ['m', '1']) (some ['z', 'z']) none
        [PathStep.mk 'z' [], PathStep.mk 'z' []])
        [Diag.usingDOrig ['u'], Diag.warnNoLP ['u'] 2] := by
  refine ⟨?_, ?_, ?_⟩
  · have h := c4_warning_condition
      (Glyph.mk 0 (some ['u']) (some ['z', 'z']) none none []) ['u'] ['z', 'z'] false
      [PathStep.mk 'z' [], PathStep.mk 'z' []] 2 rfl rfl (by decide)
    rw [h]
    decide
  · have h := c4_warning_condition
      (Glyph.mk 0 (some ['u']) (some ['z', 'z', 'z']) none (some ['d', 'c', 'd']) [])
      ['u'] ['z', 'z', 'z'] false
      [PathStep.mk 'z' [], PathStep.mk 'z' [], PathStep.mk 'z' []] 3 rfl rfl
      (by decide)
    rw [h]
    decide
  · have h := c4_warning_condition
      (Glyph.mk 0 (some ['u']) (some ['m', '1']) (some ['z', 'z']) none [])
      ['u'] ['z', 'z'] true
      [PathStep.mk 'z' [], PathStep.mk 'z' []] 2 rfl rfl (by decide)
    rw [h]
    decide

/-- C5 counterexample: the scanner accepts a literal plus sign as a
discarded separator and skips leading whitespace, both outside the
claimed comma-or-whitespace-only grammar, which rejects these inputs. -/
theorem c5_scanner_counterexample :
    parseParams ['1', '+', '2'] = .ok [1, 2] ∧ specScanOk ['1', '+', '2'] = false ∧
    parseParams [' ', '1'] = .ok [1] ∧ specScanOk [' ', '1'] = false := by decide

/-- C5 (amended): one scanning step accepts exactly an optional
whitespace run, then a token of the grammar minus-sign? digits+ (dot
digits*)?, then at most one discarded separator character that is a
comma, a plus sign, or whitespace; the step succeeds exactly on inputs
starting with such whitespace and token, and no other separator, no
leading-dot number, no exponent and no other sign is accepted. -/
theorem c5_scanner_grammar :
    (∀ (s g t r : List Char), numRE s = some (g, t, r) →
      s = g ++ r ∧ IsTok t = true ∧
      ∃ ws sep, g = ws ++ t ++ sep ∧ IsWS ws = true ∧ SepOpt sep) ∧
    (∀ (ws t rest : List Char), IsWS ws = true → IsTok t = true →
      (numRE (ws ++ (t ++ rest))).isSome = true) := by
  constructor
  · intro s g t r h
    obtain ⟨h1, h2, ws, sep, hg, hws, hsep⟩ := numRE_sound h
    refine ⟨h1, h2, ws, sep, hg, hws, ?_⟩
    rcases hsep with ⟨h3, _, _⟩ | ⟨c, h3, h4⟩
    · exact Or.inl h3
    · exact Or.inr ⟨c, h3, h4⟩
  · intro ws t rest hws ht
    exact numRE_accepts rest hws ht

/-- Witness for C5 at the inputs 1+ and space 2. -/
theorem c5_scanner_grammar_witness :
    ((['1', '+'] : List Char) = ['1', '+'] ++ [] ∧ IsTok ['1'] = true ∧
      ∃ ws sep, (['1', '+'] : List Char) = ws ++ ['1'] ++ sep ∧
        IsWS ws = true ∧ SepOpt sep) ∧
    (numRE [' ', '2']).isSome = true :=
  ⟨c5_scanner_grammar.1 ['1', '+'] ['1', '+'] ['1'] [] (by decide),
   c5_scanner_grammar.2 [' '] ['2'] [] (by decide) (by decide)⟩

/-- C8: both diagnostic sites dereference the glyph's Unicode pointer
unconditionally, so emitting either diagnostic for a glyph whose unicode
attribute is absent panics instead of completing; evaluated here at both
sites. -/
theorem c8_nilunicode_panic :
    ParsePath (Glyph.mk 0 none (some ['z', ' ', 'z']) none none []) =
      .nilPanic [] ∧
    ParsePath (Glyph.mk 0 none (some ['m', '1']) (some ['z', ' ']) none []) =
      .nilPanic [] := by decide

end Webfont
